import Mathlib

/-!
Verification development for the audioloveletter repository.

The embedding models the TypeScript sources shallowly:
* JS strings are lists of characters (`List Char`); `slice`, `trim`,
  `lastIndexOf` are translated to executable Lean functions below.
* JS numbers are modelled by exact arithmetic (`Nat`, `Int`, `ℚ`); the two
  floating-point constants that matter are noted where they appear
  (`4500 * 0.3` evaluates to exactly `1350` in float64, and
  `Math.round x = ⌊x + 1/2⌋` for the non-negative arguments that occur).
* The Deno edge-function handlers are modelled as deterministic functions
  from an input record (request data plus the responses of the external
  collaborators: database, storage, TTS engine) to the ordered list of
  observable effects they perform, ending with the HTTP response.

Sources modelled:
* src/supabase/functions/convert-to-audiobook/index.ts (second variant in
  the file, lines 288-590: the one with MAX_CHUNK_CHARS and
  splitTextIntoChunks, which the claims cite);
* src/src/pages/Index.tsx (second variant, the handleConvert poll loop);
* src/unnamed/part_006 (first variant: the optional-auth clone-voice
  handler cited by C10).
-/

/- The Batteries rational-number operations are irreducible by default,
which would prevent concrete evaluation of the handler traces below; make
them semireducible for this file. -/
attribute [local semireducible] Rat.mul Rat.inv Rat.add Rat.sub Rat.ofScientific

/-! ## JS string primitives -/

/-- Whitespace as used by JS `String.prototype.trim` and the `\s` class
(ASCII part plus NBSP; the exotic Unicode space code points do not occur in
the texts reasoned about and are omitted). -/
def isJsWS (c : Char) : Bool :=
  c = ' ' || c = '\t' || c = '\n' || c = '\r' ||
  c = '\x0b' || c = '\x0c' || c = ' '

/-- JS `s.trim()`: remove whitespace from both ends. -/
def jsTrim (l : List Char) : List Char :=
  ((l.dropWhile isJsWS).reverse.dropWhile isJsWS).reverse

/-- JS `s.slice(a, b)` for `0 ≤ a ≤ b` (the only way it is called). -/
def jsSlice (l : List Char) (a b : Nat) : List Char :=
  (l.drop a).take (b - a)

/-- Occurrence test: the pattern `pat` occurs in `s` at position `i`
(JS `s.substring(i, i + pat.length) === pat`). -/
def patAt (pat s : List Char) (i : Nat) : Bool :=
  decide ((s.drop i).take pat.length = pat)

/-- Largest `i < n` with `p i`, if any (used to model searching a string
backwards from the end, as JS `lastIndexOf` does). -/
def lastHit (p : Nat → Bool) : Nat → Option Nat
  | 0 => none
  | n + 1 => if p n then some n else lastHit p n

/-- JS `s.lastIndexOf(pat)`: the largest position at which `pat` occurs,
or `-1`. -/
def jsLastIndexOf (pat s : List Char) : Int :=
  match lastHit (fun i => patAt pat s i) (s.length + 1) with
  | some j => (j : Int)
  | none => -1

theorem dropWhile_length_le (p : Char → Bool) (l : List Char) :
    (l.dropWhile p).length ≤ l.length := by
  induction l with
  | nil => simp [List.dropWhile]
  | cons a l ih =>
    rw [List.dropWhile]
    split
    · exact Nat.le_succ_of_le ih
    · exact Nat.le_refl _

theorem jsTrim_length_le (l : List Char) : (jsTrim l).length ≤ l.length := by
  unfold jsTrim
  calc ((l.dropWhile isJsWS).reverse.dropWhile isJsWS).reverse.length
      = ((l.dropWhile isJsWS).reverse.dropWhile isJsWS).length := by
        simp [List.length_reverse]
    _ ≤ (l.dropWhile isJsWS).reverse.length := dropWhile_length_le _ _
    _ = (l.dropWhile isJsWS).length := by simp [List.length_reverse]
    _ ≤ l.length := dropWhile_length_le _ _

/-! ## The segmenter (convert-to-audiobook/index.ts, lines 350-407) -/

/-- Source: const MAX_CHUNK_CHARS = 4500. -/
def MAX_CHUNK_CHARS : Nat := 4500

/-- A segment/chapter: `{title, content}`. -/
structure Seg where
  title : List Char
  content : List Char
  deriving DecidableEq, Repr

/-- Source: the template string used inside splitTextIntoChunks. -/
def partTitle (baseTitle : List Char) (n : Nat) : List Char :=
  baseTitle ++ " (Part ".data ++ (Nat.repr n).data ++ ")".data

/-- The four sentence-end searches of splitTextIntoChunks combined with
`Math.max`, exactly as in the source (order of the max mirrors the call). -/
def lastSentenceEnd (slice : List Char) : Int :=
  max (max (jsLastIndexOf ['.', ' '] slice) (jsLastIndexOf ['.', '\n'] slice))
      (max (jsLastIndexOf ['?', ' '] slice) (jsLastIndexOf ['!', ' '] slice))

/-- The cut position chosen by one iteration of the splitTextIntoChunks
loop.  The guard constant 1350 is the exact float64 value of
`MAX_CHUNK_CHARS * 0.3`. -/
def chunkCut (remaining : List Char) : Nat :=
  if lastSentenceEnd (remaining.take MAX_CHUNK_CHARS) > 1350 then
    (lastSentenceEnd (remaining.take MAX_CHUNK_CHARS)).toNat + 1
  else MAX_CHUNK_CHARS

theorem chunkCut_pos (remaining : List Char) : 0 < chunkCut remaining := by
  unfold chunkCut
  split
  · exact Nat.succ_pos _
  · decide

theorem trimDrop_length_lt {rem : List Char} (h0 : rem.length ≠ 0) {cut : Nat}
    (hc : 0 < cut) : (jsTrim (rem.drop cut)).length < rem.length := by
  calc (jsTrim (rem.drop cut)).length
      ≤ (rem.drop cut).length := jsTrim_length_le _
    _ < rem.length := by
        rw [List.length_drop]
        omega

/-- The while-loop of splitTextIntoChunks, written with explicit fuel so
that it is structurally recursive (and hence evaluates inside the kernel);
each iteration consumes at least one character, so `remaining.length` is
always enough fuel. -/
def chunkLoopF (baseTitle : List Char) : Nat → List Char → Nat → List Seg
  | 0, _, _ => []
  | fuel + 1, remaining, partIdx =>
    if remaining.length = 0 then []
    else if remaining.length ≤ MAX_CHUNK_CHARS then
      [⟨partTitle baseTitle partIdx, jsTrim remaining⟩]
    else
      ⟨partTitle baseTitle partIdx, jsTrim (remaining.take (chunkCut remaining))⟩ ::
        chunkLoopF baseTitle fuel (jsTrim (remaining.drop (chunkCut remaining))) (partIdx + 1)

/-- The while-loop of splitTextIntoChunks. -/
def chunkLoop (baseTitle : List Char) (remaining : List Char) (partIdx : Nat) :
    List Seg :=
  chunkLoopF baseTitle remaining.length remaining partIdx

theorem chunkLoopF_congr (baseTitle : List Char) :
    ∀ f1 f2 rem n, rem.length ≤ f1 → rem.length ≤ f2 →
      chunkLoopF baseTitle f1 rem n = chunkLoopF baseTitle f2 rem n := by
  intro f1
  induction f1 with
  | zero =>
    intro f2 rem n h1 h2
    have h0 : rem.length = 0 := by omega
    cases f2 with
    | zero => rfl
    | succ f2 => rw [chunkLoopF, chunkLoopF, if_pos h0]
  | succ f1 ih =>
    intro f2 rem n h1 h2
    cases f2 with
    | zero =>
      have h0 : rem.length = 0 := by omega
      rw [chunkLoopF, chunkLoopF, if_pos h0]
    | succ f2 =>
      rw [chunkLoopF, chunkLoopF]
      by_cases h0 : rem.length = 0
      · rw [if_pos h0, if_pos h0]
      · rw [if_neg h0, if_neg h0]
        by_cases hle : rem.length ≤ MAX_CHUNK_CHARS
        · rw [if_pos hle, if_pos hle]
        · rw [if_neg hle, if_neg hle]
          have hlt := trimDrop_length_lt h0 (chunkCut_pos rem)
          rw [ih f2 _ (n + 1) (by omega) (by omega)]

theorem chunkLoopF_eq (baseTitle : List Char) (fuel : Nat) (rem : List Char) (n : Nat)
    (hf : rem.length ≤ fuel) :
    chunkLoopF baseTitle fuel rem n =
      if rem.length = 0 then []
      else if rem.length ≤ MAX_CHUNK_CHARS then
        [⟨partTitle baseTitle n, jsTrim rem⟩]
      else
        ⟨partTitle baseTitle n, jsTrim (rem.take (chunkCut rem))⟩ ::
          chunkLoop baseTitle (jsTrim (rem.drop (chunkCut rem))) (n + 1) := by
  cases fuel with
  | zero =>
    have h0 : rem.length = 0 := by omega
    rw [chunkLoopF, if_pos h0]
  | succ fuel =>
    rw [chunkLoopF]
    by_cases h0 : rem.length = 0
    · rw [if_pos h0, if_pos h0]
    · rw [if_neg h0, if_neg h0]
      by_cases hle : rem.length ≤ MAX_CHUNK_CHARS
      · rw [if_pos hle, if_pos hle]
      · rw [if_neg hle, if_neg hle]
        congr 1
        have hlt := trimDrop_length_lt h0 (chunkCut_pos rem)
        exact chunkLoopF_congr baseTitle fuel _ _ (n + 1) (by omega) le_rfl

/-- One unfolding of the loop, phrased without fuel. -/
theorem chunkLoop_eq (baseTitle rem : List Char) (n : Nat) :
    chunkLoop baseTitle rem n =
      if rem.length = 0 then []
      else if rem.length ≤ MAX_CHUNK_CHARS then
        [⟨partTitle baseTitle n, jsTrim rem⟩]
      else
        ⟨partTitle baseTitle n, jsTrim (rem.take (chunkCut rem))⟩ ::
          chunkLoop baseTitle (jsTrim (rem.drop (chunkCut rem))) (n + 1) :=
  chunkLoopF_eq baseTitle rem.length rem n le_rfl

/-- Source: function splitTextIntoChunks(text, baseTitle). -/
def splitTextIntoChunks (text baseTitle : List Char) : List Seg :=
  if text.length ≤ MAX_CHUNK_CHARS then [⟨baseTitle, text⟩]
  else chunkLoop baseTitle text 1

/-! ## Spec-side description of the sub-splitter (for claim C3)

The following definitions follow the words of the specification, not the
source: "repeatedly take a prefix of at most MAX_CHUNK_CHARS; search
backward within that prefix for the last sentence-ending punctuation
('. ', '.\n', '? ', '! ') that occurs past 30% of the prefix length; if
found, cut there (immediately after the punctuation character), else cut at
the hard limit; trim and emit as "{title} (Part {n})"; repeat on the
remainder.  A chapter at or under the limit is emitted unchanged." -/

/-- One of the four sentence-ending punctuation pairs occurs at
position `i`. -/
def sentencePunctAt (s : List Char) (i : Nat) : Bool :=
  patAt ['.', ' '] s i || patAt ['.', '\n'] s i ||
  patAt ['?', ' '] s i || patAt ['!', ' '] s i

/-- The last sentence-ending punctuation position in the prefix that occurs
strictly past 30% of the prefix length (the comparison `i > 0.3·len` is
taken exactly, as `10·i > 3·len`). -/
def lastPunctPast (s : List Char) : Option Nat :=
  lastHit (fun i => sentencePunctAt s i && decide (10 * i > 3 * s.length)) s.length

/-- Spec-side cut position: after the last qualifying punctuation if one
exists, else the hard limit. -/
def specCut (rem : List Char) : Nat :=
  match lastPunctPast (rem.take MAX_CHUNK_CHARS) with
  | some j => j + 1
  | none => MAX_CHUNK_CHARS

theorem specCut_pos (rem : List Char) : 0 < specCut rem := by
  unfold specCut
  split
  · exact Nat.succ_pos _
  · decide

/-- Spec-side sub-split loop, with fuel for structural recursion. -/
def specGoF (title : List Char) : Nat → List Char → Nat → List Seg
  | 0, _, _ => []
  | fuel + 1, rem, n =>
    if rem.length = 0 then []
    else if rem.length ≤ MAX_CHUNK_CHARS then [⟨partTitle title n, jsTrim rem⟩]
    else
      ⟨partTitle title n, jsTrim (rem.take (specCut rem))⟩ ::
        specGoF title fuel (jsTrim (rem.drop (specCut rem))) (n + 1)

/-- Spec-side sub-split loop. -/
def specGo (title : List Char) (rem : List Char) (n : Nat) : List Seg :=
  specGoF title rem.length rem n

/-- Spec-side sub-splitter, following the specification sentence. -/
def splitTextIntoChunksSpec (text title : List Char) : List Seg :=
  if text.length ≤ MAX_CHUNK_CHARS then [⟨title, text⟩]
  else specGo title text 1

theorem specGoF_congr (title : List Char) :
    ∀ f1 f2 rem n, rem.length ≤ f1 → rem.length ≤ f2 →
      specGoF title f1 rem n = specGoF title f2 rem n := by
  intro f1
  induction f1 with
  | zero =>
    intro f2 rem n h1 h2
    have h0 : rem.length = 0 := by omega
    cases f2 with
    | zero => rfl
    | succ f2 => rw [specGoF, specGoF, if_pos h0]
  | succ f1 ih =>
    intro f2 rem n h1 h2
    cases f2 with
    | zero =>
      have h0 : rem.length = 0 := by omega
      rw [specGoF, specGoF, if_pos h0]
    | succ f2 =>
      rw [specGoF, specGoF]
      by_cases h0 : rem.length = 0
      · rw [if_pos h0, if_pos h0]
      · rw [if_neg h0, if_neg h0]
        by_cases hle : rem.length ≤ MAX_CHUNK_CHARS
        · rw [if_pos hle, if_pos hle]
        · rw [if_neg hle, if_neg hle]
          have hlt := trimDrop_length_lt h0 (specCut_pos rem)
          rw [ih f2 _ (n + 1) (by omega) (by omega)]

theorem specGoF_eq (title : List Char) (fuel : Nat) (rem : List Char) (n : Nat)
    (hf : rem.length ≤ fuel) :
    specGoF title fuel rem n =
      if rem.length = 0 then []
      else if rem.length ≤ MAX_CHUNK_CHARS then [⟨partTitle title n, jsTrim rem⟩]
      else
        ⟨partTitle title n, jsTrim (rem.take (specCut rem))⟩ ::
          specGo title (jsTrim (rem.drop (specCut rem))) (n + 1) := by
  cases fuel with
  | zero =>
    have h0 : rem.length = 0 := by omega
    rw [specGoF, if_pos h0]
  | succ fuel =>
    rw [specGoF]
    by_cases h0 : rem.length = 0
    · rw [if_pos h0, if_pos h0]
    · rw [if_neg h0, if_neg h0]
      by_cases hle : rem.length ≤ MAX_CHUNK_CHARS
      · rw [if_pos hle, if_pos hle]
      · rw [if_neg hle, if_neg hle]
        congr 1
        have hlt := trimDrop_length_lt h0 (specCut_pos rem)
        exact specGoF_congr title fuel _ _ (n + 1) (by omega) le_rfl

theorem specGo_eq (title rem : List Char) (n : Nat) :
    specGo title rem n =
      if rem.length = 0 then []
      else if rem.length ≤ MAX_CHUNK_CHARS then [⟨partTitle title n, jsTrim rem⟩]
      else
        ⟨partTitle title n, jsTrim (rem.take (specCut rem))⟩ ::
          specGo title (jsTrim (rem.drop (specCut rem))) (n + 1) :=
  specGoF_eq title rem.length rem n le_rfl

/-! ## The chapter-heading matcher (splitIntoChapters, lines 380-407)

Models the global regex (?:^|\n)(Chapter\s+\d+[^\n]*|CHAPTER\s+\d+[^\n]*)
with the i flag.  Under case-insensitivity the two alternatives coincide;
the character classes \s and \d are disjoint from each other and from the
literal word, so greedy matching needs no backtracking and the matcher
below is an exact model. -/

/-- Case-insensitive character comparison (the i flag, ASCII case). -/
def charIEq (a b : Char) : Bool := a.toLower = b.toLower

/-- Match a literal word case-insensitively at the head of a suffix,
returning the rest of the suffix. -/
def matchCI : List Char → List Char → Option (List Char)
  | [], s => some s
  | _ :: _, [] => none
  | c :: w, d :: s => if charIEq c d then matchCI w s else none

/-- Try the capture group Chapter\s+\d+[^\n]* at the head of the given
suffix; returns the length of the group match. -/
def tryGroup (s : List Char) : Option Nat :=
  match matchCI "chapter".data s with
  | none => none
  | some r1 =>
    let w := (r1.takeWhile isJsWS).length
    if w = 0 then none
    else
      let r2 := r1.dropWhile isJsWS
      let d := (r2.takeWhile Char.isDigit).length
      if d = 0 then none
      else
        let r3 := r2.dropWhile Char.isDigit
        some (7 + w + d + (r3.takeWhile (fun c => c ≠ '\n')).length)

/-- A regex match: overall match index (includes a consumed leading
newline), the capture-group start, and the match end. -/
structure ChMatch where
  idx : Nat
  gs : Nat
  e : Nat
  deriving DecidableEq, Repr

/-- Try the whole pattern at absolute position i: the (?:^|\n) prefix
(the anchor alternative first, as the regex engine does), then the group. -/
def matchAt (s : List Char) (i : Nat) : Option ChMatch :=
  if i = 0 then
    match tryGroup s with
    | some g => some ⟨0, 0, g⟩
    | none =>
      match s with
      | '\n' :: rest => (tryGroup rest).map (fun g => ⟨0, 1, 1 + g⟩)
      | _ => none
  else
    match s.drop i with
    | '\n' :: rest => (tryGroup rest).map (fun g => ⟨i, i + 1, i + 1 + g⟩)
    | _ => none

/-- The scan of matchAll, with fuel for structural recursion: try each
position in turn; after a match, resume at the match end (all matches are
at least 9 characters long, so the `max` with `i + 1` never changes the
resume position). -/
def scanGoF (s : List Char) : Nat → Nat → List ChMatch
  | 0, _ => []
  | fuel + 1, i =>
    if s.length < i then []
    else
      match matchAt s i with
      | some m => m :: scanGoF s fuel (max m.e (i + 1))
      | none => scanGoF s fuel (i + 1)

/-- The scan of matchAll. -/
def scanGo (s : List Char) (i : Nat) : List ChMatch :=
  scanGoF s (s.length + 1 - i) i

theorem scanGoF_congr (s : List Char) :
    ∀ f1 f2 i, s.length + 1 - i ≤ f1 → s.length + 1 - i ≤ f2 →
      scanGoF s f1 i = scanGoF s f2 i := by
  intro f1
  induction f1 with
  | zero =>
    intro f2 i h1 h2
    have hlt : s.length < i := by omega
    cases f2 with
    | zero => rfl
    | succ f2 => rw [scanGoF, scanGoF, if_pos hlt]
  | succ f1 ih =>
    intro f2 i h1 h2
    cases f2 with
    | zero =>
      have hlt : s.length < i := by omega
      rw [scanGoF, scanGoF, if_pos hlt]
    | succ f2 =>
      rw [scanGoF, scanGoF]
      by_cases hlt : s.length < i
      · rw [if_pos hlt, if_pos hlt]
      · rw [if_neg hlt, if_neg hlt]
        cases hma : matchAt s i with
        | some m =>
          show m :: scanGoF s f1 (max m.e (i + 1)) = m :: scanGoF s f2 (max m.e (i + 1))
          rw [ih f2 (max m.e (i + 1)) (by omega) (by omega)]
        | none =>
          show scanGoF s f1 (i + 1) = scanGoF s f2 (i + 1)
          exact ih f2 (i + 1) (by omega) (by omega)

theorem scanGoF_eq (s : List Char) (fuel i : Nat) (hf : s.length + 1 - i ≤ fuel) :
    scanGoF s fuel i =
      if s.length < i then []
      else
        match matchAt s i with
        | some m => m :: scanGo s (max m.e (i + 1))
        | none => scanGo s (i + 1) := by
  cases fuel with
  | zero =>
    have hlt : s.length < i := by omega
    rw [scanGoF, if_pos hlt]
  | succ fuel =>
    rw [scanGoF]
    by_cases hlt : s.length < i
    · rw [if_pos hlt, if_pos hlt]
    · rw [if_neg hlt, if_neg hlt]
      cases hma : matchAt s i with
      | some m =>
        show m :: scanGoF s fuel (max m.e (i + 1)) = m :: scanGo s (max m.e (i + 1))
        congr 1
        exact scanGoF_congr s fuel _ (max m.e (i + 1)) (by omega) le_rfl
      | none =>
        show scanGoF s fuel (i + 1) = scanGo s (i + 1)
        exact scanGoF_congr s fuel _ (i + 1) (by omega) le_rfl

theorem scanGo_eq (s : List Char) (i : Nat) :
    scanGo s i =
      if s.length < i then []
      else
        match matchAt s i with
        | some m => m :: scanGo s (max m.e (i + 1))
        | none => scanGo s (i + 1) :=
  scanGoF_eq s (s.length + 1 - i) i le_rfl

/-- Source: [...text.matchAll(chapterPattern)]. -/
def scanMatches (s : List Char) : List ChMatch := scanGo s 0

/-- Source: the title "Full Text" used for the fallback segment. -/
def fullTextTitle : List Char := "Full Text".data

/-- The rawChapters construction of splitIntoChapters when at least two
matches were found: each chapter spans from its match index to the next
match index (or end of text), trimmed; its title is the trimmed capture
group. -/
def buildRaw (text : List Char) : List ChMatch → List Seg
  | [] => []
  | [m] => [⟨jsTrim (jsSlice text m.gs m.e), jsTrim (jsSlice text m.idx text.length)⟩]
  | m :: m' :: rest =>
    ⟨jsTrim (jsSlice text m.gs m.e), jsTrim (jsSlice text m.idx m'.idx)⟩ ::
      buildRaw text (m' :: rest)

/-- Source: function splitIntoChapters(text). -/
def splitIntoChapters (text : List Char) : List Seg :=
  let ms := scanMatches text
  let rawChapters : List Seg :=
    if 2 ≤ ms.length then buildRaw text ms else [⟨fullTextTitle, text⟩]
  let finalChapters := rawChapters.flatMap (fun ch => splitTextIntoChunks ch.content ch.title)
  if 0 < finalChapters.length then finalChapters else [⟨fullTextTitle, text⟩]

/-! ## Characterization of the backward searches -/

theorem lastHit_eq_none {p : Nat → Bool} {n : Nat} (h : lastHit p n = none) :
    ∀ k, k < n → p k = false := by
  induction n with
  | zero => intro k hk; omega
  | succ n ih =>
    rw [lastHit] at h
    intro k hk
    by_cases hp : p n
    · simp [hp] at h
    · rcases Nat.lt_succ_iff_lt_or_eq.mp hk with hlt | rfl
      · exact ih (by simpa [hp] using h) k hlt
      · simpa using hp

theorem lastHit_eq_some {p : Nat → Bool} {n j : Nat} (h : lastHit p n = some j) :
    j < n ∧ p j = true ∧ ∀ k, j < k → k < n → p k = false := by
  induction n with
  | zero => simp [lastHit] at h
  | succ n ih =>
    rw [lastHit] at h
    by_cases hp : p n
    · simp only [hp, if_true, Option.some.injEq] at h
      subst h
      exact ⟨Nat.lt_succ_self _, hp, fun k hk hk' => by omega⟩
    · simp only [hp, if_false] at h
      obtain ⟨h1, h2, h3⟩ := ih h
      refine ⟨Nat.lt_succ_of_lt h1, h2, fun k hk hk' => ?_⟩
      rcases Nat.lt_succ_iff_lt_or_eq.mp hk' with hlt | rfl
      · exact h3 k hk hlt
      · simpa using hp

theorem lastHit_intro {p : Nat → Bool} {n j : Nat} (hj : j < n) (hp : p j = true)
    (hmax : ∀ k, j < k → k < n → p k = false) : lastHit p n = some j := by
  induction n with
  | zero => omega
  | succ n ih =>
    rw [lastHit]
    by_cases hn : j = n
    · subst hn; simp [hp]
    · have hjn : j < n := by omega
      have : p n = false := hmax n (by omega) (Nat.lt_succ_self _)
      simp only [this, if_false]
      exact ih hjn (fun k hk hk' => hmax k hk (Nat.lt_succ_of_lt hk'))

theorem patAt_bound {pat s : List Char} {i : Nat} (hpat : pat ≠ [])
    (h : patAt pat s i = true) : i + pat.length ≤ s.length := by
  unfold patAt at h
  have hl : 0 < pat.length := List.length_pos.mpr hpat
  have heq : (s.drop i).take pat.length = pat := of_decide_eq_true h
  have := congrArg List.length heq
  simp only [List.length_take, List.length_drop] at this
  omega

theorem patAt_oob {pat s : List Char} {i : Nat} (hpat : pat ≠ [])
    (hi : s.length ≤ i) : patAt pat s i = false := by
  unfold patAt
  have : s.drop i = [] := List.drop_eq_nil_of_le hi
  rw [this, List.take_nil]
  exact decide_eq_false (fun hq => hpat hq.symm)

theorem jsLastIndexOf_ge {pat s : List Char} {i : Nat} (hpat : pat ≠ [])
    (h : patAt pat s i = true) : (i : Int) ≤ jsLastIndexOf pat s := by
  unfold jsLastIndexOf
  have hib : i + pat.length ≤ s.length := patAt_bound hpat h
  cases hh : lastHit (fun i => patAt pat s i) (s.length + 1) with
  | none =>
    have := lastHit_eq_none hh i (by omega)
    rw [h] at this
    exact absurd this (by simp)
  | some j =>
    obtain ⟨h1, h2, h3⟩ := lastHit_eq_some hh
    by_cases hij : i ≤ j
    · exact show (i : Int) ≤ (j : Int) by exact_mod_cast hij
    · have := h3 i (by omega) (by omega)
      rw [h] at this
      exact absurd this (by simp)

theorem jsLastIndexOf_mem {pat s : List Char}
    (h : 0 ≤ jsLastIndexOf pat s) : patAt pat s (jsLastIndexOf pat s).toNat = true := by
  unfold jsLastIndexOf at h ⊢
  cases hh : lastHit (fun i => patAt pat s i) (s.length + 1) with
  | none => rw [hh] at h; simp at h
  | some j =>
    obtain ⟨_, h2, _⟩ := lastHit_eq_some hh
    simpa using h2

theorem sentencePunctAt_bound {s : List Char} {i : Nat}
    (h : sentencePunctAt s i = true) : i + 2 ≤ s.length := by
  unfold sentencePunctAt at h
  simp only [Bool.or_eq_true] at h
  rcases h with ((h | h) | h) | h <;> exact patAt_bound (by decide) h

theorem lastSentenceEnd_ge {s : List Char} {i : Nat}
    (h : sentencePunctAt s i = true) : (i : Int) ≤ lastSentenceEnd s := by
  unfold sentencePunctAt at h
  unfold lastSentenceEnd
  simp only [Bool.or_eq_true] at h
  rcases h with ((h | h) | h) | h
  · exact le_trans (jsLastIndexOf_ge (by decide) h) (le_trans (le_max_left _ _) (le_max_left _ _))
  · exact le_trans (jsLastIndexOf_ge (by decide) h) (le_trans (le_max_right _ _) (le_max_left _ _))
  · exact le_trans (jsLastIndexOf_ge (by decide) h) (le_trans (le_max_left _ _) (le_max_right _ _))
  · exact le_trans (jsLastIndexOf_ge (by decide) h) (le_trans (le_max_right _ _) (le_max_right _ _))

theorem lastSentenceEnd_mem {s : List Char} (h : 0 ≤ lastSentenceEnd s) :
    sentencePunctAt s (lastSentenceEnd s).toNat = true := by
  unfold lastSentenceEnd at h ⊢
  unfold sentencePunctAt
  rcases max_choice (max (jsLastIndexOf ['.', ' '] s) (jsLastIndexOf ['.', '\n'] s))
      (max (jsLastIndexOf ['?', ' '] s) (jsLastIndexOf ['!', ' '] s)) with h1 | h1 <;>
    rw [h1] at h ⊢
  · rcases max_choice (jsLastIndexOf ['.', ' '] s) (jsLastIndexOf ['.', '\n'] s) with h2 | h2 <;>
      rw [h2] at h ⊢
    · simp [jsLastIndexOf_mem h]
    · simp [jsLastIndexOf_mem h]
  · rcases max_choice (jsLastIndexOf ['?', ' '] s) (jsLastIndexOf ['!', ' '] s) with h2 | h2 <;>
      rw [h2] at h ⊢
    · simp [jsLastIndexOf_mem h]
    · simp [jsLastIndexOf_mem h]

/-! ## Equivalence of the source cut and the spec cut (claim C3) -/

theorem chunkCut_eq_specCut {rem : List Char} (h : MAX_CHUNK_CHARS < rem.length) :
    chunkCut rem = specCut rem := by
  unfold chunkCut specCut lastPunctPast
  have hpre : (rem.take MAX_CHUNK_CHARS).length = MAX_CHUNK_CHARS := by
    rw [List.length_take]
    omega
  set pre := rem.take MAX_CHUNK_CHARS with hpredef
  by_cases hM : lastSentenceEnd pre > 1350
  · have h0 : (0 : Int) ≤ lastSentenceEnd pre := by omega
    have hmem : sentencePunctAt pre (lastSentenceEnd pre).toNat = true :=
      lastSentenceEnd_mem h0
    have hbnd : (lastSentenceEnd pre).toNat + 2 ≤ pre.length :=
      sentencePunctAt_bound hmem
    have hhit : lastHit
        (fun i => sentencePunctAt pre i && decide (10 * i > 3 * pre.length))
        pre.length = some (lastSentenceEnd pre).toNat := by
      apply lastHit_intro
      · omega
      · have h10 : 10 * (lastSentenceEnd pre).toNat > 3 * pre.length := by
          rw [hpre]
          unfold MAX_CHUNK_CHARS
          omega
        simp [hmem, h10]
      · intro k hk hk'
        by_cases hsp : sentencePunctAt pre k = true
        · have := lastSentenceEnd_ge hsp
          omega
        · simp [hsp]
    rw [hhit]
    simp only [if_pos hM]
  · have hnone : lastHit
        (fun i => sentencePunctAt pre i && decide (10 * i > 3 * pre.length))
        pre.length = none := by
      cases hh : lastHit
          (fun i => sentencePunctAt pre i && decide (10 * i > 3 * pre.length))
          pre.length with
      | none => rfl
      | some j =>
        obtain ⟨h1, h2, _⟩ := lastHit_eq_some hh
        simp only [Bool.and_eq_true, decide_eq_true_eq] at h2
        have := lastSentenceEnd_ge h2.1
        have h10 : 10 * j > 3 * pre.length := h2.2
        rw [hpre] at h10
        unfold MAX_CHUNK_CHARS at h10
        omega
    rw [hnone]
    simp only [if_neg hM]

theorem chunkLoop_eq_specGo (title rem : List Char) (n : Nat) :
    chunkLoop title rem n = specGo title rem n := by
  suffices h : ∀ N rem n, rem.length ≤ N → chunkLoop title rem n = specGo title rem n by
    exact h rem.length rem n le_rfl
  intro N
  induction N with
  | zero =>
    intro rem n hlen
    have h0 : rem.length = 0 := by omega
    rw [chunkLoop_eq, specGo_eq]
    simp [h0]
  | succ N ih =>
    intro rem n hlen
    rw [chunkLoop_eq, specGo_eq]
    by_cases h0 : rem.length = 0
    · simp [h0]
    · simp only [h0, if_false]
      by_cases hle : rem.length ≤ MAX_CHUNK_CHARS
      · simp [hle]
      · simp only [hle, if_false]
        have hgt : MAX_CHUNK_CHARS < rem.length := by omega
        rw [chunkCut_eq_specCut hgt]
        congr 1
        apply ih
        have hlt : (jsTrim (rem.drop (specCut rem))).length < rem.length := by
          calc (jsTrim (rem.drop (specCut rem))).length
              ≤ (rem.drop (specCut rem)).length := jsTrim_length_le _
            _ < rem.length := by
                rw [List.length_drop]
                have := specCut_pos rem
                omega
        omega

/-- Claim C3: the sub-splitter behaves exactly as specified: for a chapter
whose content exceeds MAX_CHUNK_CHARS it repeatedly takes a prefix of at
most MAX_CHUNK_CHARS, cuts just after the last sentence-ending punctuation
('. ', '.\n', '? ', '! ') occurring strictly past 30% of the prefix length
if one exists and otherwise at the hard limit, emits each trimmed piece
titled "{title} (Part {n})" with strictly increasing n, and a chapter at or
under the limit is emitted unchanged with its original title.  Stated as a
refinement: the source function equals the spec-side function built from
the words of the claim. -/
theorem splitTextIntoChunks_eq_spec (text title : List Char) :
    splitTextIntoChunks text title = splitTextIntoChunksSpec text title := by
  unfold splitTextIntoChunks splitTextIntoChunksSpec
  by_cases h : text.length ≤ MAX_CHUNK_CHARS
  · simp [h]
  · simp only [h, if_false]
    exact chunkLoop_eq_specGo title text 1

/-! ## Claim C1: non-emptiness and the chunk-size bound -/

theorem chunkCut_le (rem : List Char) : chunkCut rem ≤ MAX_CHUNK_CHARS := by
  unfold chunkCut
  split
  · rename_i h
    have h0 : (0 : Int) ≤ lastSentenceEnd (rem.take MAX_CHUNK_CHARS) := by omega
    have hmem := lastSentenceEnd_mem h0
    have hbnd := sentencePunctAt_bound hmem
    have hple : (rem.take MAX_CHUNK_CHARS).length ≤ MAX_CHUNK_CHARS := by
      rw [List.length_take]
      exact Nat.min_le_left _ _
    omega
  · exact Nat.le_refl _

theorem chunkLoop_content_le (title rem : List Char) (n : Nat) :
    ∀ seg ∈ chunkLoop title rem n, seg.content.length ≤ MAX_CHUNK_CHARS := by
  suffices h : ∀ N rem n, rem.length ≤ N →
      ∀ seg ∈ chunkLoop title rem n, seg.content.length ≤ MAX_CHUNK_CHARS by
    exact h rem.length rem n le_rfl
  intro N
  induction N with
  | zero =>
    intro rem n hlen seg hseg
    have h0 : rem.length = 0 := by omega
    rw [chunkLoop_eq] at hseg
    simp [h0] at hseg
  | succ N ih =>
    intro rem n hlen seg hseg
    rw [chunkLoop_eq] at hseg
    by_cases h0 : rem.length = 0
    · simp [h0] at hseg
    · simp only [h0, if_false] at hseg
      by_cases hle : rem.length ≤ MAX_CHUNK_CHARS
      · simp only [hle, if_true, List.mem_singleton] at hseg
        subst hseg
        exact le_trans (jsTrim_length_le _) hle
      · simp only [hle, if_false, List.mem_cons] at hseg
        rcases hseg with rfl | hseg
        · calc (jsTrim (rem.take (chunkCut rem))).length
              ≤ (rem.take (chunkCut rem)).length := jsTrim_length_le _
            _ ≤ chunkCut rem := by
                rw [List.length_take]
                exact Nat.min_le_left _ _
            _ ≤ MAX_CHUNK_CHARS := chunkCut_le rem
        · refine ih (jsTrim (rem.drop (chunkCut rem))) (n + 1) ?_ seg hseg
          have hlt : (jsTrim (rem.drop (chunkCut rem))).length < rem.length := by
            calc (jsTrim (rem.drop (chunkCut rem))).length
                ≤ (rem.drop (chunkCut rem)).length := jsTrim_length_le _
              _ < rem.length := by
                  rw [List.length_drop]
                  have := chunkCut_pos rem
                  omega
          omega

theorem chunkLoop_ne_nil (title rem : List Char) (n : Nat)
    (h : rem.length ≠ 0) : chunkLoop title rem n ≠ [] := by
  rw [chunkLoop_eq]
  simp only [h, if_false]
  split <;> simp

theorem splitTextIntoChunks_content_le (text title : List Char) :
    ∀ seg ∈ splitTextIntoChunks text title, seg.content.length ≤ MAX_CHUNK_CHARS := by
  unfold splitTextIntoChunks
  split
  · rename_i h
    intro seg hseg
    simp only [List.mem_singleton] at hseg
    subst hseg
    exact h
  · rename_i h
    exact chunkLoop_content_le title text 1

theorem splitTextIntoChunks_ne_nil (text title : List Char) :
    splitTextIntoChunks text title ≠ [] := by
  unfold splitTextIntoChunks
  split
  · simp
  · rename_i h
    exact chunkLoop_ne_nil title text 1 (by omega)

theorem finalChapters_ne_nil (raw : List Seg) (hraw : raw ≠ []) :
    raw.flatMap (fun ch => splitTextIntoChunks ch.content ch.title) ≠ [] := by
  cases raw with
  | nil => exact absurd rfl hraw
  | cons ch rest =>
    intro hcontra
    rw [List.flatMap_cons] at hcontra
    have := List.append_eq_nil.mp hcontra
    exact splitTextIntoChunks_ne_nil ch.content ch.title this.1

theorem rawChapters_ne_nil (text : List Char) :
    (if 2 ≤ (scanMatches text).length then buildRaw text (scanMatches text)
     else [⟨fullTextTitle, text⟩]) ≠ [] := by
  split
  · rename_i h
    cases hms : scanMatches text with
    | nil => rw [hms] at h; simp at h
    | cons m rest =>
      cases rest with
      | nil => rw [hms] at h; simp at h
      | cons m' rest' => rw [buildRaw]; simp
  · simp

/-- Claim C1: for every input text, splitIntoChapters returns a non-empty
list of segments, and every returned segment's content length is at most
MAX_CHUNK_CHARS (4500) characters. -/
theorem splitIntoChapters_nonempty_and_bounded (text : List Char) :
    splitIntoChapters text ≠ [] ∧
    ∀ seg ∈ splitIntoChapters text, seg.content.length ≤ MAX_CHUNK_CHARS := by
  unfold splitIntoChapters
  have hraw := rawChapters_ne_nil text
  have hfin := finalChapters_ne_nil _ hraw
  have hpos : 0 < ((if 2 ≤ (scanMatches text).length then buildRaw text (scanMatches text)
      else [⟨fullTextTitle, text⟩]).flatMap
        (fun ch => splitTextIntoChunks ch.content ch.title)).length :=
    List.length_pos.mpr hfin
  simp only [hpos, if_true]
  refine ⟨hfin, ?_⟩
  intro seg hseg
  rw [List.mem_flatMap] at hseg
  obtain ⟨ch, _, hseg⟩ := hseg
  exact splitTextIntoChunks_content_le ch.content ch.title seg hseg

/-! ## Claim C2: concatenation of segment contents

`WsSub out src` states that `out` is obtained from `src` by deleting only
whitespace characters, keeping everything else in order — the formal
reading of "reproduces the original text's content order with no character
loss or duplication, aside from whitespace trimmed at boundaries". -/

inductive WsSub : List Char → List Char → Prop
  | nil : WsSub [] []
  | keep {c : Char} {l s : List Char} : WsSub l s → WsSub (c :: l) (c :: s)
  | skip {c : Char} {l s : List Char} : isJsWS c = true → WsSub l s → WsSub l (c :: s)

theorem wsSub_refl (l : List Char) : WsSub l l := by
  induction l with
  | nil => exact WsSub.nil
  | cons c l ih => exact WsSub.keep ih

theorem wsSub_append {a s b t : List Char} (h1 : WsSub a s) (h2 : WsSub b t) :
    WsSub (a ++ b) (s ++ t) := by
  induction h1 with
  | nil => simpa using h2
  | keep _ ih => exact WsSub.keep ih
  | skip hc _ ih => exact WsSub.skip hc ih

theorem wsSub_nil_inv {a : List Char} (h : WsSub a []) : a = [] := by
  cases h
  rfl

theorem wsSub_cons_inv {a s : List Char} {c : Char} (h : WsSub a (c :: s)) :
    (∃ a', a = c :: a' ∧ WsSub a' s) ∨ (isJsWS c = true ∧ WsSub a s) := by
  cases h with
  | keep h' => exact Or.inl ⟨_, rfl, h'⟩
  | skip hc h' => exact Or.inr ⟨hc, h'⟩

theorem wsSub_trans {a b c : List Char} (h1 : WsSub a b) (h2 : WsSub b c) :
    WsSub a c := by
  induction h2 generalizing a with
  | nil => rw [wsSub_nil_inv h1]; exact WsSub.nil
  | keep h' ih =>
    rcases wsSub_cons_inv h1 with ⟨a', rfl, ha⟩ | ⟨hc, ha⟩
    · exact WsSub.keep (ih ha)
    · exact WsSub.skip hc (ih ha)
  | skip hc h' ih => exact WsSub.skip hc (ih h1)

theorem wsSub_dropWhile (l : List Char) : WsSub (l.dropWhile isJsWS) l := by
  induction l with
  | nil => exact WsSub.nil
  | cons c l ih =>
    rw [List.dropWhile]
    by_cases hc : isJsWS c
    · simp only [hc, if_true]
      exact WsSub.skip hc ih
    · simp only [hc, if_false]
      exact wsSub_refl _

theorem wsSub_of_all_ws {w : List Char} (hw : ∀ c ∈ w, isJsWS c = true) :
    WsSub [] w := by
  induction w with
  | nil => exact WsSub.nil
  | cons c w ih =>
    exact WsSub.skip (hw c (List.mem_cons_self c w)) (ih fun d hd => hw d (List.mem_cons_of_mem c hd))

theorem wsSub_append_ws_right {a w : List Char} (hw : ∀ c ∈ w, isJsWS c = true) :
    WsSub a (a ++ w) := by
  induction a with
  | nil => simpa using wsSub_of_all_ws hw
  | cons c a ih => exact WsSub.keep ih

theorem mem_takeWhile_ws {l : List Char} {c : Char}
    (h : c ∈ l.takeWhile isJsWS) : isJsWS c = true := by
  induction l with
  | nil => simp [List.takeWhile] at h
  | cons a l ih =>
    rw [List.takeWhile] at h
    by_cases ha : isJsWS a
    · simp only [ha, if_true, List.mem_cons] at h
      rcases h with rfl | h
      · exact ha
      · exact ih h
    · simp [ha] at h

theorem wsSub_jsTrim (l : List Char) : WsSub (jsTrim l) l := by
  unfold jsTrim
  have step1 : WsSub (l.dropWhile isJsWS) l := wsSub_dropWhile l
  refine wsSub_trans ?_ step1
  set m := l.dropWhile isJsWS with hm
  have hdec : m = ((m.reverse.dropWhile isJsWS).reverse) ++ ((m.reverse.takeWhile isJsWS).reverse) := by
    have h1 : m.reverse.takeWhile isJsWS ++ m.reverse.dropWhile isJsWS = m.reverse :=
      List.takeWhile_append_dropWhile isJsWS m.reverse
    have h2 := congrArg List.reverse h1
    rw [List.reverse_append, List.reverse_reverse] at h2
    exact h2.symm
  nth_rewrite 2 [hdec]
  apply wsSub_append_ws_right
  intro c hc
  rw [List.mem_reverse] at hc
  exact mem_takeWhile_ws hc

theorem wsSub_filter {a s : List Char} (h : WsSub a s) :
    a.filter (fun c => !isJsWS c) = s.filter (fun c => !isJsWS c) := by
  induction h with
  | nil => rfl
  | keep _ ih =>
    rw [List.filter_cons, List.filter_cons]
    split <;> simp [ih]
  | skip hc _ ih =>
    rw [List.filter_cons]
    simp only [hc, Bool.not_true]
    simpa using ih

/-- Concatenation of the contents of a list of segments, in order. -/
def concatContents (segs : List Seg) : List Char := segs.flatMap Seg.content

theorem drop_eq_slice_append {text : List Char} {a b : Nat} (hab : a ≤ b) :
    text.drop a = jsSlice text a b ++ text.drop b := by
  unfold jsSlice
  have hdd : (text.drop a).drop (b - a) = text.drop b := by
    rw [List.drop_drop]
    congr 1
    omega
  calc text.drop a = (text.drop a).take (b - a) ++ (text.drop a).drop (b - a) :=
        (List.take_append_drop _ _).symm
    _ = (text.drop a).take (b - a) ++ text.drop b := by rw [hdd]

theorem slice_to_end (text : List Char) (a : Nat) :
    jsSlice text a text.length = text.drop a := by
  unfold jsSlice
  apply List.take_of_length_le
  rw [List.length_drop]

theorem chunkLoop_concat_wsSub (title rem : List Char) (n : Nat) :
    WsSub (concatContents (chunkLoop title rem n)) rem := by
  suffices h : ∀ N rem n, rem.length ≤ N →
      WsSub (concatContents (chunkLoop title rem n)) rem by
    exact h rem.length rem n le_rfl
  intro N
  induction N with
  | zero =>
    intro rem n hlen
    have h0 : rem = [] := List.length_eq_zero.mp (by omega)
    subst h0
    rw [chunkLoop_eq]
    simp only [List.length_nil, if_pos rfl]
    exact WsSub.nil
  | succ N ih =>
    intro rem n hlen
    rw [chunkLoop_eq]
    by_cases h0 : rem.length = 0
    · have h0' : rem = [] := List.length_eq_zero.mp h0
      subst h0'
      simp only [List.length_nil, if_pos rfl]
      exact WsSub.nil
    · simp only [h0, if_false]
      by_cases hle : rem.length ≤ MAX_CHUNK_CHARS
      · simp only [hle, if_true]
        unfold concatContents
        rw [List.flatMap_cons, List.flatMap_nil, List.append_nil]
        exact wsSub_jsTrim rem
      · simp only [hle, if_false]
        unfold concatContents
        rw [List.flatMap_cons]
        have htail : WsSub
            ((chunkLoop title (jsTrim (rem.drop (chunkCut rem))) (n + 1)).flatMap Seg.content)
            (rem.drop (chunkCut rem)) := by
          have hlt : (jsTrim (rem.drop (chunkCut rem))).length < rem.length := by
            calc (jsTrim (rem.drop (chunkCut rem))).length
                ≤ (rem.drop (chunkCut rem)).length := jsTrim_length_le _
              _ < rem.length := by
                  rw [List.length_drop]
                  have := chunkCut_pos rem
                  omega
          exact wsSub_trans (ih _ (n + 1) (by omega)) (wsSub_jsTrim _)
        have hhead : WsSub (jsTrim (rem.take (chunkCut rem))) (rem.take (chunkCut rem)) :=
          wsSub_jsTrim _
        have happ := wsSub_append hhead htail
        rw [List.take_append_drop] at happ
        exact happ

theorem splitTextIntoChunks_concat_wsSub (text title : List Char) :
    WsSub (concatContents (splitTextIntoChunks text title)) text := by
  unfold splitTextIntoChunks
  split
  · unfold concatContents
    rw [List.flatMap_cons, List.flatMap_nil, List.append_nil]
    exact wsSub_refl text
  · exact chunkLoop_concat_wsSub title text 1

theorem flatMap_chunks_concat_wsSub (raw : List Seg) :
    WsSub (concatContents (raw.flatMap (fun ch => splitTextIntoChunks ch.content ch.title)))
      (concatContents raw) := by
  induction raw with
  | nil => exact WsSub.nil
  | cons ch rest ih =>
    unfold concatContents at ih ⊢
    rw [List.flatMap_cons, List.flatMap_cons, List.flatMap_append]
    exact wsSub_append (splitTextIntoChunks_concat_wsSub ch.content ch.title) ih

theorem matchAt_idx {s : List Char} {i : Nat} {m : ChMatch}
    (h : matchAt s i = some m) : m.idx = i := by
  unfold matchAt at h
  split at h
  · rename_i hi
    split at h
    · rename_i g hg
      simp only [Option.some.injEq] at h
      rw [← h, hi]
    · split at h
      · simp only [Option.map_eq_some'] at h
        obtain ⟨g, _, hgm⟩ := h
        rw [← hgm, hi]
      · exact absurd h (by simp)
  · split at h
    · simp only [Option.map_eq_some'] at h
      obtain ⟨g, _, hgm⟩ := h
      rw [← hgm]
    · exact absurd h (by simp)

theorem scanGo_bounds (s : List Char) :
    ∀ N i, s.length + 1 - i ≤ N → ∀ m ∈ scanGo s i, i ≤ m.idx ∧ m.idx ≤ s.length := by
  intro N
  induction N with
  | zero =>
    intro i hN m hm
    rw [scanGo_eq] at hm
    have hlt : s.length < i := by omega
    simp [hlt] at hm
  | succ N ih =>
    intro i hN m hm
    rw [scanGo_eq] at hm
    by_cases hlt : s.length < i
    · simp [hlt] at hm
    · simp only [hlt, if_false] at hm
      cases hma : matchAt s i with
      | none =>
        rw [hma] at hm
        have := ih (i + 1) (by omega) m hm
        exact ⟨by omega, this.2⟩
      | some m0 =>
        rw [hma] at hm
        simp only [List.mem_cons] at hm
        rcases hm with rfl | hm
        · rw [matchAt_idx hma]
          exact ⟨le_rfl, by omega⟩
        · have := ih (max m0.e (i + 1)) (by omega) m hm
          refine ⟨?_, this.2⟩
          have := this.1
          omega

theorem scanGo_mem_bounds (s : List Char) (i : Nat) :
    ∀ m ∈ scanGo s i, i ≤ m.idx ∧ m.idx ≤ s.length :=
  scanGo_bounds s (s.length + 1 - i) i le_rfl

theorem scanGo_pairwise (s : List Char) :
    ∀ N i, s.length + 1 - i ≤ N →
      (scanGo s i).Pairwise (fun a b => a.idx < b.idx) := by
  intro N
  induction N with
  | zero =>
    intro i hN
    rw [scanGo_eq]
    have hlt : s.length < i := by omega
    simp [hlt]
  | succ N ih =>
    intro i hN
    rw [scanGo_eq]
    by_cases hlt : s.length < i
    · simp [hlt]
    · simp only [hlt, if_false]
      cases hma : matchAt s i with
      | none => exact ih (i + 1) (by omega)
      | some m0 =>
        rw [List.pairwise_cons]
        constructor
        · intro b hb
          have hbd := (scanGo_mem_bounds s (max m0.e (i + 1)) b hb).1
          rw [matchAt_idx hma]
          omega
        · exact ih (max m0.e (i + 1)) (by omega)

theorem scanMatches_pairwise (s : List Char) :
    (scanMatches s).Pairwise (fun a b => a.idx < b.idx) :=
  scanGo_pairwise s (s.length + 1) 0 le_rfl

theorem scanMatches_mem_le (s : List Char) :
    ∀ m ∈ scanMatches s, m.idx ≤ s.length :=
  fun m hm => (scanGo_mem_bounds s 0 m hm).2

theorem buildRaw_concat_wsSub (text : List Char) :
    ∀ (rest : List ChMatch) (m : ChMatch),
      (∀ x ∈ m :: rest, x.idx ≤ text.length) →
      (m :: rest).Pairwise (fun a b => a.idx < b.idx) →
      WsSub (concatContents (buildRaw text (m :: rest))) (text.drop m.idx) := by
  intro rest
  induction rest with
  | nil =>
    intro m hbd hpw
    rw [buildRaw]
    unfold concatContents
    rw [List.flatMap_cons, List.flatMap_nil, List.append_nil]
    show WsSub (jsTrim (jsSlice text m.idx text.length)) (text.drop m.idx)
    rw [slice_to_end]
    exact wsSub_jsTrim _
  | cons m' rest' ih =>
    intro m hbd hpw
    rw [buildRaw]
    unfold concatContents at ih ⊢
    rw [List.flatMap_cons]
    have hpw' := List.pairwise_cons.mp hpw
    have hmm' : m.idx ≤ m'.idx := le_of_lt (hpw'.1 m' (List.mem_cons_self _ _))
    have htail := ih m' (fun x hx => hbd x (List.mem_cons_of_mem m hx)) hpw'.2
    have hhead : WsSub (jsTrim (jsSlice text m.idx m'.idx)) (jsSlice text m.idx m'.idx) :=
      wsSub_jsTrim _
    have happ := wsSub_append hhead htail
    rw [← drop_eq_slice_append hmm'] at happ
    exact happ

/-- The suffix of the text that the segmenter actually covers: everything
from the first detected chapter heading onward when at least two headings
are found, the whole text otherwise. -/
def dropFromFirstMatch (text : List Char) : List Char :=
  match scanMatches text with
  | m :: _ :: _ => text.drop m.idx
  | _ => text

/-- Claim C2 (amended): concatenating the contents of all segments, in
order, reproduces the covered portion of the original text — the whole
text when fewer than two chapter headings are detected, and the suffix
from the first detected heading onward otherwise — with only whitespace
characters deleted (at trim/cut boundaries), no other loss and no
duplication. -/
theorem splitIntoChapters_concat_wsSub (text : List Char) :
    WsSub (concatContents (splitIntoChapters text)) (dropFromFirstMatch text) := by
  unfold splitIntoChapters
  have hraw := rawChapters_ne_nil text
  have hfin := finalChapters_ne_nil _ hraw
  have hpos := List.length_pos.mpr hfin
  simp only [hpos, if_true]
  refine wsSub_trans (flatMap_chunks_concat_wsSub _) ?_
  unfold dropFromFirstMatch
  cases hms : scanMatches text with
  | nil =>
    have hc : ¬ (2 ≤ ([] : List ChMatch).length) := by simp
    simp only [hc, if_false]
    unfold concatContents
    rw [List.flatMap_cons, List.flatMap_nil, List.append_nil]
    exact wsSub_refl text
  | cons m rest =>
    cases rest with
    | nil =>
      have hc : ¬ (2 ≤ [m].length) := by simp
      simp only [hc, if_false]
      unfold concatContents
      rw [List.flatMap_cons, List.flatMap_nil, List.append_nil]
      exact wsSub_refl text
    | cons m' rest' =>
      have h2 : 2 ≤ (m :: m' :: rest').length := by
        simp only [List.length_cons]
        omega
      simp only [h2, if_true]
      have hbd : ∀ x ∈ m :: m' :: rest', x.idx ≤ text.length := by
        intro x hx
        exact scanMatches_mem_le text x (by rw [hms]; exact hx)
      have hpw : (m :: m' :: rest').Pairwise (fun a b => a.idx < b.idx) := by
        have := scanMatches_pairwise text
        rwa [hms] at this
      exact buildRaw_concat_wsSub text (m' :: rest') m hbd hpw

/-- A text with a preamble before the first chapter heading. -/
def c2Text : List Char := "Intro.\nChapter 1 A\nbody one\nChapter 2 B\nbody two".data

/-- Claim C2 (counterexample): for the text "Intro.\nChapter 1 A\nbody
one\nChapter 2 B\nbody two", concatenating all segment contents does NOT
reproduce the original text up to whitespace trimming: the non-whitespace
preamble "Intro." before the first detected chapter heading is dropped
entirely by the segmenter, so the claim as stated is false. -/
theorem splitIntoChapters_concat_counterexample :
    ¬ WsSub (concatContents (splitIntoChapters c2Text)) c2Text := by
  intro h
  exact absurd (wsSub_filter h) (by decide)

/-! ## The conversion handler (convert-to-audiobook/index.ts, lines 409-590)

The Deno.serve handler is modelled as a deterministic function from an
input record to the ordered list of observable effects it performs.  The
input record carries the request data together with the responses of the
external collaborators (auth resolver, database, storage, TTS engine),
which the handler consumes in program order.  Floating-point arithmetic on
progress and durations is modelled exactly over ℚ. -/

/-- Job statuses used by the handler. -/
inductive Status
  | parsing
  | converting
  | done
  | failed
  deriving DecidableEq, Repr

/-- Chapter metadata accumulated during synthesis:
{title, startSeconds, durationSeconds}. -/
structure ChapterMeta where
  title : List Char
  startSeconds : ℚ
  durationSeconds : ℚ
  deriving DecidableEq, Repr

/-- The fields of a partial update of the conversions record (absent
fields are untouched by the update). -/
structure JobUpdate where
  status : Option Status
  progress : Option ℤ
  chaptersSkeleton : Option (List (Nat × List Char × Nat))
  chaptersMeta : Option (List ChapterMeta)
  audioPath : Option (List Char)
  totalDurationSeconds : Option ℚ
  deriving DecidableEq, Repr

/-- The per-iteration progress update: { progress, status: "converting" }. -/
def convertingUpdate (p : ℤ) : JobUpdate :=
  ⟨some Status.converting, some p, none, none, none, none⟩

/-- The post-segmentation update: { status: "converting", progress: 20,
chapters: skeleton }. -/
def skeletonUpdate (sk : List (Nat × List Char × Nat)) : JobUpdate :=
  ⟨some Status.converting, some 20, some sk, none, none, none⟩

/-- The TTS-failure update: { status: "failed" }. -/
def failedUpdate : JobUpdate :=
  ⟨some Status.failed, none, none, none, none, none⟩

/-- The completion update: { status: "done", progress: 100,
audio_storage_path, total_duration_seconds, chapters }. -/
def doneUpdate (path : List Char) (dur : ℚ) (meta : List ChapterMeta) : JobUpdate :=
  ⟨some Status.done, some 100, none, some meta, some path, some dur⟩

/-- Observable effects of the handler, in program order. -/
inductive Event
  | insertJob (status : Status) (progress : ℤ)
  | updateJob (u : JobUpdate)
  | ttsRequest (idx : Nat)
  | uploadAudio (nbytes : Nat)
  | respond (ok : Bool)
  deriving DecidableEq, Repr

/-- Outcome of one TTS fetch: success with an audio byte length, or a
non-ok HTTP response. -/
inductive TtsResult
  | ok (bytes : Nat)
  | fail
  deriving DecidableEq, Repr

/-- Math.round for the non-negative arguments that occur. -/
def jsRound (q : ℚ) : ℤ := ⌊q + 1 / 2⌋

/-- Source: const progress = 20 + Math.round(((i + 1) / chapters.length) * 60). -/
def segProgress (i total : Nat) : ℤ :=
  20 + jsRound (((i : ℚ) + 1) / (total : ℚ) * 60)

/-- Source: const audioPath = user.id + "/" + conversion.id + ".mp3". -/
def audioPathOf (uid cid : List Char) : List Char :=
  uid ++ "/".data ++ cid ++ ".mp3".data

/-- Source: chapters.map((c, i) => ({index: i, title: c.title,
charCount: c.content.length})). -/
def skeletonOf (chapters : List Seg) : List (Nat × List Char × Nat) :=
  chapters.enum.map (fun p => (p.1, p.2.title, p.2.content.length))

/-- Input record for one handler run: request data plus the collaborator
responses consumed in program order. -/
structure HandlerInput where
  isOptions : Bool
  hasApiKey : Bool
  hasAuthHeader : Bool
  authUser : Option (List Char)
  documentPath : Option (List Char)
  voiceCloneId : Option (List Char)
  voiceFound : Bool
  voiceElevenId : Option (List Char)
  downloadOk : Bool
  extractOk : Bool
  extractedText : List Char
  insertOk : Bool
  conversionId : List Char
  tts : Nat → TtsResult
  uploadOk : Bool

/-- All checks of the handler that precede the conversion insert, in
program order: missing API key, missing auth header, getUser failure,
missing body fields, voice not found, voice not ready, download failure,
extraction failure, empty extracted text, insert failure.  Each failing
check throws before any observable effect is performed, and the single
catch turns the throw into the error response, so the checks collapse to
one conjunction without changing the event trace. -/
def preflightOk (inp : HandlerInput) : Bool :=
  inp.hasApiKey && inp.hasAuthHeader && inp.authUser.isSome &&
  inp.documentPath.isSome && inp.voiceCloneId.isSome && inp.voiceFound &&
  inp.voiceElevenId.isSome && inp.downloadOk && inp.extractOk &&
  !(jsTrim inp.extractedText).isEmpty && inp.insertOk

/-- The synthesis loop (lines 491-548): for each chapter, push the
progress update, issue the TTS request; on failure mark the job failed and
abort; on success accumulate audio bytes and chapter timing.  Returns the
events plus, on success, (chapterMeta, totalDuration, total audio bytes). -/
def synthGo (tts : Nat → TtsResult) (total : Nat) :
    List Seg → Nat → ℚ → List Event × Option (List ChapterMeta × ℚ × Nat)
  | [], _, acc => ([], some ([], acc, 0))
  | ch :: rest, i, acc =>
    match tts i with
    | TtsResult.fail =>
      ([Event.updateJob (convertingUpdate (segProgress i total)), Event.ttsRequest i,
        Event.updateJob failedUpdate], none)
    | TtsResult.ok k =>
      (Event.updateJob (convertingUpdate (segProgress i total)) :: Event.ttsRequest i ::
        (synthGo tts total rest (i + 1) (acc + (k : ℚ) / 16000)).1,
       ((synthGo tts total rest (i + 1) (acc + (k : ℚ) / 16000)).2).map
         (fun r => (⟨ch.title, acc, (k : ℚ) / 16000⟩ :: r.1, r.2.1, r.2.2 + k)))

/-- Events after the synthesis loop: on TTS failure the loop has already
pushed the failed update and the handler responds with the error; on
success the combined audio is uploaded, and then either the done update
and success response, or (upload error) just the error response — with no
status update. -/
def afterSynth (inp : HandlerInput) (uid : List Char) :
    Option (List ChapterMeta × ℚ × Nat) → List Event
  | none => [Event.respond false]
  | some r =>
    Event.uploadAudio r.2.2 ::
      (if inp.uploadOk then
        [Event.updateJob (doneUpdate (audioPathOf uid inp.conversionId) r.2.1 r.1),
         Event.respond true]
      else [Event.respond false])

/-- The full trace of one handler run, ending with the HTTP response. -/
def handlerEvents (inp : HandlerInput) : List Event :=
  if inp.isOptions then [Event.respond true]
  else if preflightOk inp then
    Event.insertJob Status.parsing 10 ::
    Event.updateJob (skeletonUpdate (skeletonOf (splitIntoChapters inp.extractedText))) ::
    ((synthGo inp.tts (splitIntoChapters inp.extractedText).length
        (splitIntoChapters inp.extractedText) 0 0).1 ++
      afterSynth inp (inp.authUser.getD [])
        (synthGo inp.tts (splitIntoChapters inp.extractedText).length
          (splitIntoChapters inp.extractedText) 0 0).2)
  else [Event.respond false]

/-- Number of segments of a run (chapters.length). -/
def numSegs (inp : HandlerInput) : Nat :=
  (splitIntoChapters inp.extractedText).length

theorem synthGo_cons_fail {tts : Nat → TtsResult} {total : Nat} {ch : Seg}
    {rest : List Seg} {i : Nat} {acc : ℚ} (h : tts i = TtsResult.fail) :
    synthGo tts total (ch :: rest) i acc =
      ([Event.updateJob (convertingUpdate (segProgress i total)), Event.ttsRequest i,
        Event.updateJob failedUpdate], none) := by
  rw [synthGo, h]

theorem synthGo_cons_ok {tts : Nat → TtsResult} {total : Nat} {ch : Seg}
    {rest : List Seg} {i : Nat} {acc : ℚ} {k : Nat} (h : tts i = TtsResult.ok k) :
    synthGo tts total (ch :: rest) i acc =
      (Event.updateJob (convertingUpdate (segProgress i total)) :: Event.ttsRequest i ::
        (synthGo tts total rest (i + 1) (acc + (k : ℚ) / 16000)).1,
       ((synthGo tts total rest (i + 1) (acc + (k : ℚ) / 16000)).2).map
         (fun r => (⟨ch.title, acc, (k : ℚ) / 16000⟩ :: r.1, r.2.1, r.2.2 + k))) := by
  rw [synthGo, h]

theorem synthGo_tts_decomp (tts : Nat → TtsResult) (total : Nat) :
    ∀ (chapters : List Seg) (i : Nat) (acc : ℚ) (j : Nat),
      Event.ttsRequest j ∈ (synthGo tts total chapters i acc).1 →
      ∃ pre post, (synthGo tts total chapters i acc).1 =
        pre ++ Event.updateJob (convertingUpdate (segProgress j total)) ::
          Event.ttsRequest j :: post := by
  intro chapters
  induction chapters with
  | nil =>
    intro i acc j hm
    simp [synthGo] at hm
  | cons ch rest ih =>
    intro i acc j hm
    cases hts : tts i with
    | fail =>
      rw [synthGo_cons_fail hts] at hm ⊢
      simp at hm
      subst hm
      exact ⟨[], [Event.updateJob failedUpdate], rfl⟩
    | ok k =>
      rw [synthGo_cons_ok hts] at hm ⊢
      simp at hm
      rcases hm with rfl | hm
      · exact ⟨[], _, rfl⟩
      · obtain ⟨pre, post, heq⟩ := ih (i + 1) (acc + (k : ℚ) / 16000) j hm
        refine ⟨Event.updateJob (convertingUpdate (segProgress i total)) ::
          Event.ttsRequest i :: pre, post, ?_⟩
        rw [heq]
        simp

theorem afterSynth_no_tts (inp : HandlerInput) (uid : List Char)
    (res : Option (List ChapterMeta × ℚ × Nat)) :
    ∀ j, Event.ttsRequest j ∉ afterSynth inp uid res := by
  intro j
  cases res with
  | none => simp [afterSynth]
  | some r =>
    rw [afterSynth]
    by_cases hu : inp.uploadOk
    · simp [hu]
    · simp [hu]

/-- A TTS engine that always succeeds returning 32000 audio bytes. -/
def ttsAllOk : Nat → TtsResult := fun _ => TtsResult.ok 32000

/-- A TTS engine whose every call fails. -/
def ttsAllFail : Nat → TtsResult := fun _ => TtsResult.fail

/-- A fully successful run: authorized, one 12-character document
("Hello world." segments into the single chapter "Full Text"), every
collaborator call succeeds. -/
def inpSuccess : HandlerInput :=
  ⟨false, true, true, some "user1".data, some "doc.txt".data, some "vc1".data,
   true, some "ev1".data, true, true, "Hello world.".data, true, "c1".data,
   ttsAllOk, true⟩

/-- Same run, but the storage upload of the combined audio fails. -/
def inpUploadFail : HandlerInput :=
  ⟨false, true, true, some "user1".data, some "doc.txt".data, some "vc1".data,
   true, some "ev1".data, true, true, "Hello world.".data, true, "c1".data,
   ttsAllOk, false⟩

/-- Same run, but the (single) TTS call fails. -/
def inpTtsFail : HandlerInput :=
  ⟨false, true, true, some "user1".data, some "doc.txt".data, some "vc1".data,
   true, some "ev1".data, true, true, "Hello world.".data, true, "c1".data,
   ttsAllFail, true⟩

/-! ## Claim C4: the progress formula and its push -/

/-- The progress value asserted by claim C4:
20 + round(((i+1)/totalSegments) * 70). -/
def claimC4Progress (i total : Nat) : ℤ :=
  20 + jsRound (((i : ℚ) + 1) / (total : ℚ) * 70)

/-- Claim C4 as stated, at one input: after each segment i completes
synthesis, the job's progress is advanced to exactly
20 + round(((i+1)/totalSegments) * 70) together with a converting status,
pushed to the job record immediately (the update directly follows the
segment's TTS call). -/
def claimC4At (inp : HandlerInput) : Prop :=
  ∀ i, Event.ttsRequest i ∈ handlerEvents inp →
    ∃ pre post, handlerEvents inp =
      pre ++ Event.ttsRequest i ::
        Event.updateJob (convertingUpdate (claimC4Progress i (numSegs inp))) :: post

/-- Claim C4 (counterexample): in the fully successful one-segment run the
claimed progress value is 20 + round((1/1)·70) = 90, but the code pushes
20 + round((1/1)·60) = 80 before the TTS call and never pushes 90: no
progress-90 converting update exists anywhere in the trace, so the claim
as stated is false at this input. -/
theorem progress_formula_counterexample : ¬ claimC4At inpSuccess := by
  intro h
  obtain ⟨pre, post, heq⟩ := h 0 (by decide)
  have hmem : Event.updateJob (convertingUpdate (claimC4Progress 0 (numSegs inpSuccess))) ∈
      handlerEvents inpSuccess := by
    rw [heq]
    simp
  exact absurd hmem (by decide)

/-- Claim C4 (amended): before each segment i's TTS call begins (not after
it completes), the job's progress is set to exactly
20 + round(((i+1)/totalSegments) * 60) together with a converting status,
and this update is pushed to the job record immediately: it directly
precedes the segment's TTS request in the trace. -/
theorem progress_update_before_each_tts :
    ∀ (inp : HandlerInput) (i : Nat), Event.ttsRequest i ∈ handlerEvents inp →
      ∃ pre post, handlerEvents inp =
        pre ++ Event.updateJob (convertingUpdate (segProgress i (numSegs inp))) ::
          Event.ttsRequest i :: post := by
  intro inp i hm
  unfold handlerEvents at hm ⊢
  by_cases hopt : inp.isOptions = true
  · simp [hopt] at hm
  · simp only [hopt, if_false, Bool.false_eq_true] at hm ⊢
    by_cases hpf : preflightOk inp = true
    · simp only [hpf, if_true] at hm ⊢
      simp only [List.mem_cons, List.mem_append] at hm
      rcases hm with hm | hm | hm | hm
      · exact absurd hm (by simp)
      · exact absurd hm (by simp)
      · obtain ⟨pre, post, heq⟩ := synthGo_tts_decomp inp.tts
          (splitIntoChapters inp.extractedText).length
          (splitIntoChapters inp.extractedText) 0 0 i hm
        refine ⟨Event.insertJob Status.parsing 10 ::
          Event.updateJob (skeletonUpdate (skeletonOf (splitIntoChapters inp.extractedText))) ::
          pre,
          post ++ afterSynth inp (inp.authUser.getD [])
            (synthGo inp.tts (splitIntoChapters inp.extractedText).length
              (splitIntoChapters inp.extractedText) 0 0).2, ?_⟩
        rw [heq]
        unfold numSegs
        simp [List.append_assoc]
      · exact absurd hm (afterSynth_no_tts inp (inp.authUser.getD []) _ i)
    · simp [hpf] at hm

/-- Witness for the amended claim C4 at the concrete one-segment run: the
progress-80 converting update directly precedes the TTS request. -/
theorem progress_update_before_each_tts_witness :
    ∃ pre post, handlerEvents inpSuccess =
      pre ++ Event.updateJob (convertingUpdate (segProgress 0 (numSegs inpSuccess))) ::
        Event.ttsRequest 0 :: post :=
  progress_update_before_each_tts inpSuccess 0 (by decide)

/-! ## Claim C5: the state machine invariants -/

theorem synthGo_update_cases (tts : Nat → TtsResult) (total : Nat) :
    ∀ (chapters : List Seg) (i : Nat) (acc : ℚ) (u : JobUpdate),
      Event.updateJob u ∈ (synthGo tts total chapters i acc).1 →
      (∃ p, u = convertingUpdate p) ∨ u = failedUpdate := by
  intro chapters
  induction chapters with
  | nil =>
    intro i acc u hm
    simp [synthGo] at hm
  | cons ch rest ih =>
    intro i acc u hm
    cases hts : tts i with
    | fail =>
      rw [synthGo_cons_fail hts] at hm
      simp at hm
      rcases hm with rfl | rfl
      · exact Or.inl ⟨_, rfl⟩
      · exact Or.inr rfl
    | ok k =>
      rw [synthGo_cons_ok hts] at hm
      simp at hm
      rcases hm with rfl | hm
      · exact Or.inl ⟨_, rfl⟩
      · exact ih (i + 1) _ u hm

theorem synthGo_none_shape (tts : Nat → TtsResult) (total : Nat) :
    ∀ (chapters : List Seg) (i : Nat) (acc : ℚ),
      (synthGo tts total chapters i acc).2 = none →
      ∃ evs, (synthGo tts total chapters i acc).1 = evs ++ [Event.updateJob failedUpdate] ∧
        ∀ u, Event.updateJob u ∈ evs → ∃ p, u = convertingUpdate p := by
  intro chapters
  induction chapters with
  | nil =>
    intro i acc hres
    simp [synthGo] at hres
  | cons ch rest ih =>
    intro i acc hres
    cases hts : tts i with
    | fail =>
      rw [synthGo_cons_fail hts]
      refine ⟨[Event.updateJob (convertingUpdate (segProgress i total)), Event.ttsRequest i],
        rfl, ?_⟩
      intro u hu
      simp at hu
      exact ⟨_, hu⟩
    | ok k =>
      rw [synthGo_cons_ok hts] at hres ⊢
      simp only [Option.map_eq_none'] at hres
      obtain ⟨evs, hevs, hconv⟩ := ih (i + 1) _ hres
      refine ⟨Event.updateJob (convertingUpdate (segProgress i total)) ::
        Event.ttsRequest i :: evs, ?_, ?_⟩
      · rw [hevs]
        simp
      · intro u hu
        simp at hu
        rcases hu with rfl | hu
        · exact ⟨_, rfl⟩
        · exact hconv u hu

theorem synthGo_some_conv (tts : Nat → TtsResult) (total : Nat) :
    ∀ (chapters : List Seg) (i : Nat) (acc : ℚ) (r : List ChapterMeta × ℚ × Nat),
      (synthGo tts total chapters i acc).2 = some r →
      ∀ u, Event.updateJob u ∈ (synthGo tts total chapters i acc).1 →
        ∃ p, u = convertingUpdate p := by
  intro chapters
  induction chapters with
  | nil =>
    intro i acc r _ u hm
    simp [synthGo] at hm
  | cons ch rest ih =>
    intro i acc r hres u hm
    cases hts : tts i with
    | fail =>
      rw [synthGo_cons_fail hts] at hres
      simp at hres
    | ok k =>
      rw [synthGo_cons_ok hts] at hres hm
      simp only [Option.map_eq_some'] at hres
      obtain ⟨r', hr', _⟩ := hres
      simp at hm
      rcases hm with rfl | hm
      · exact ⟨_, rfl⟩
      · exact ih (i + 1) _ r' hr' u hm

theorem no_update_after_aux :
    ∀ (A B : List Event),
      (∀ w, Event.updateJob w ∈ A → w.status ≠ some Status.failed) →
      (∀ v, Event.updateJob v ∉ B) →
      ∀ pre u post,
        A ++ Event.updateJob failedUpdate :: B = pre ++ Event.updateJob u :: post →
        u.status = some Status.failed → ∀ v, Event.updateJob v ∈ post → False := by
  intro A
  induction A with
  | nil =>
    intro B hA hB pre u post heq hfail v hv
    cases pre with
    | nil =>
      simp only [List.nil_append] at heq
      injection heq with h1 h2
      rw [← h2] at hv
      exact hB v hv
    | cons p pre' =>
      simp only [List.nil_append, List.cons_append] at heq
      injection heq with h1 h2
      have : Event.updateJob u ∈ B := by
        rw [h2]
        simp
      exact hB u this
  | cons a A' ih =>
    intro B hA hB pre u post heq hfail v hv
    cases pre with
    | nil =>
      simp only [List.nil_append, List.cons_append] at heq
      injection heq with h1 h2
      subst h1
      exact hA u (List.mem_cons_self _ _) hfail
    | cons p pre' =>
      simp only [List.cons_append] at heq
      injection heq with h1 h2
      exact ih B (fun w hw => hA w (List.mem_cons_of_mem a hw)) hB pre' u post h2 hfail v hv

theorem handler_update_cases (inp : HandlerInput) :
    ∀ u, Event.updateJob u ∈ handlerEvents inp →
      u = skeletonUpdate (skeletonOf (splitIntoChapters inp.extractedText)) ∨
      (∃ p, u = convertingUpdate p) ∨ u = failedUpdate ∨
      (∃ r, (synthGo inp.tts (splitIntoChapters inp.extractedText).length
          (splitIntoChapters inp.extractedText) 0 0).2 = some r ∧
        u = doneUpdate (audioPathOf (inp.authUser.getD []) inp.conversionId) r.2.1 r.1) := by
  intro u hm
  unfold handlerEvents at hm
  by_cases hopt : inp.isOptions = true
  · simp [hopt] at hm
  · simp only [hopt, if_false, Bool.false_eq_true] at hm
    by_cases hpf : preflightOk inp = true
    · simp only [hpf, if_true] at hm
      rcases List.mem_cons.mp hm with hm | hm
      · exact absurd hm (by simp)
      rcases List.mem_cons.mp hm with hm | hm
      · simp only [Event.updateJob.injEq] at hm
        exact Or.inl hm
      rcases List.mem_append.mp hm with hm | hm
      · rcases synthGo_update_cases inp.tts _ _ 0 0 u hm with h | h
        · exact Or.inr (Or.inl h)
        · exact Or.inr (Or.inr (Or.inl h))
      · cases hres : (synthGo inp.tts (splitIntoChapters inp.extractedText).length
            (splitIntoChapters inp.extractedText) 0 0).2 with
        | none =>
          rw [hres] at hm
          simp [afterSynth] at hm
        | some r =>
          rw [hres] at hm
          rw [afterSynth] at hm
          by_cases hup : inp.uploadOk = true
          · simp only [hup, if_true] at hm
            simp at hm
            subst hm
            exact Or.inr (Or.inr (Or.inr ⟨r, rfl, rfl⟩))
          · simp only [hup, Bool.false_eq_true, if_false] at hm
            simp at hm
    · simp [hpf] at hm

/-- Claim C5: (a) the only update that sets status done also sets, in the
same atomic update, progress = 100 and non-null audioLocation,
totalDurationSeconds and final chapters; (b) once an update with status
failed has been applied, no later event in the run updates the job record
at all (so neither progress nor status ever changes after failed). -/
theorem job_state_machine (inp : HandlerInput) :
    (∀ u, Event.updateJob u ∈ handlerEvents inp → u.status = some Status.done →
      u.progress = some 100 ∧ u.audioPath.isSome = true ∧
        u.totalDurationSeconds.isSome = true ∧ u.chaptersMeta.isSome = true) ∧
    (∀ pre u post, handlerEvents inp = pre ++ Event.updateJob u :: post →
      u.status = some Status.failed → ∀ v, Event.updateJob v ∈ post → False) := by
  constructor
  · intro u hm hdone
    rcases handler_update_cases inp u hm with rfl | ⟨p, rfl⟩ | rfl | ⟨r, hres, rfl⟩
    · exact absurd hdone (by simp [skeletonUpdate])
    · exact absurd hdone (by simp [convertingUpdate])
    · exact absurd hdone (by simp [failedUpdate])
    · exact ⟨rfl, rfl, rfl, rfl⟩
  · intro pre u post heq hfail v hv
    unfold handlerEvents at heq
    by_cases hopt : inp.isOptions = true
    · rw [if_pos hopt] at heq
      have : Event.updateJob u ∈ [Event.respond true] := by
        rw [heq]
        simp
      simp at this
    · rw [if_neg hopt] at heq
      by_cases hpf : preflightOk inp = true
      · rw [if_pos hpf] at heq
        cases hres : (synthGo inp.tts (splitIntoChapters inp.extractedText).length
            (splitIntoChapters inp.extractedText) 0 0).2 with
        | none =>
          obtain ⟨evs, hevs, hconv⟩ := synthGo_none_shape inp.tts _ _ 0 0 hres
          rw [hres, hevs] at heq
          rw [afterSynth] at heq
          have heq' : (Event.insertJob Status.parsing 10 ::
              Event.updateJob (skeletonUpdate (skeletonOf (splitIntoChapters inp.extractedText))) ::
              evs) ++ Event.updateJob failedUpdate :: [Event.respond false] =
              pre ++ Event.updateJob u :: post := by
            rw [← heq]
            simp
          refine no_update_after_aux _ _ ?_ ?_ pre u post heq' hfail v hv
          · intro w hw hwf
            simp at hw
            rcases hw with hw | hw
            · rw [hw] at hwf
              simp [skeletonUpdate] at hwf
            · obtain ⟨p, rfl⟩ := hconv w hw
              simp [convertingUpdate] at hwf
          · intro w hw
            simp at hw
        | some r =>
          have hmem : Event.updateJob u ∈
              Event.insertJob Status.parsing 10 ::
              Event.updateJob (skeletonUpdate (skeletonOf (splitIntoChapters inp.extractedText))) ::
              ((synthGo inp.tts (splitIntoChapters inp.extractedText).length
                  (splitIntoChapters inp.extractedText) 0 0).1 ++
                afterSynth inp (inp.authUser.getD [])
                  (synthGo inp.tts (splitIntoChapters inp.extractedText).length
                    (splitIntoChapters inp.extractedText) 0 0).2) := by
            rw [heq]
            simp
          simp only [List.mem_cons, List.mem_append] at hmem
          rcases hmem with hmem | hmem | hmem | hmem
          · exact absurd hmem (by simp)
          · injection hmem with h'
            rw [h'] at hfail
            simp [skeletonUpdate] at hfail
          · obtain ⟨p, rfl⟩ := synthGo_some_conv inp.tts _ _ 0 0 r hres u hmem
            simp [convertingUpdate] at hfail
          · rw [hres] at hmem
            rw [afterSynth] at hmem
            by_cases hup : inp.uploadOk = true
            · simp only [hup, if_true] at hmem
              simp at hmem
              subst hmem
              simp [doneUpdate] at hfail
            · simp only [hup, Bool.false_eq_true, if_false] at hmem
              simp at hmem
      · rw [if_neg hpf] at heq
        have : Event.updateJob u ∈ [Event.respond false] := by
          rw [heq]
          simp
        simp at this

/-- Witness for claim C5 at the concrete successful run: the done update
of the trace carries progress 100 and non-null audio path, total duration
and chapters. -/
theorem job_state_machine_witness :
    (doneUpdate (audioPathOf "user1".data "c1".data) 2
        [⟨"Full Text".data, 0, 2⟩]).progress = some 100 ∧
    (doneUpdate (audioPathOf "user1".data "c1".data) 2
        [⟨"Full Text".data, 0, 2⟩]).audioPath.isSome = true ∧
    (doneUpdate (audioPathOf "user1".data "c1".data) 2
        [⟨"Full Text".data, 0, 2⟩]).totalDurationSeconds.isSome = true ∧
    (doneUpdate (audioPathOf "user1".data "c1".data) 2
        [⟨"Full Text".data, 0, 2⟩]).chaptersMeta.isSome = true :=
  (job_state_machine inpSuccess).1 _ (by decide) rfl

/-! ## Claim C6: failure recording and propagation -/

/-- An event that updates the job record with status failed. -/
def isFailedUpdate : Event → Bool
  | Event.updateJob u => decide (u.status = some Status.failed)
  | _ => false

/-- Claim C6 as stated, at one input on which synthesis began and a
failure occurred: the failure is recorded by a failed-status update, and
no error is returned synchronously to the caller of the triggering
request. -/
def claimC6At (inp : HandlerInput) : Prop :=
  ((handlerEvents inp).any isFailedUpdate = true) ∧
  Event.respond false ∉ handlerEvents inp

/-- Claim C6 (counterexample): in the run where the job was created and
synthesis succeeded but the storage upload of the combined audio failed,
the trace contains no failed-status update at all (the job is left in
converting), and the error response is returned synchronously to the
caller, so the claim as stated is false at this input. -/
theorem failure_handling_counterexample : ¬ claimC6At inpUploadFail := by
  unfold claimC6At
  decide

/-- A run that reaches the synthesis loop and aborts on a TTS failure. -/
def ttsFailureRun (inp : HandlerInput) : Prop :=
  inp.isOptions = false ∧ preflightOk inp = true ∧
  (synthGo inp.tts (splitIntoChapters inp.extractedText).length
    (splitIntoChapters inp.extractedText) 0 0).2 = none

/-- A run in which all TTS calls succeed but the audio upload fails. -/
def uploadFailureRun (inp : HandlerInput) : Prop :=
  inp.isOptions = false ∧ preflightOk inp = true ∧ inp.uploadOk = false ∧
  (synthGo inp.tts (splitIntoChapters inp.extractedText).length
    (splitIntoChapters inp.extractedText) 0 0).2 ≠ none

theorem synthGo_some_no_failed (tts : Nat → TtsResult) (total : Nat)
    (chapters : List Seg) (r : List ChapterMeta × ℚ × Nat)
    (hres : (synthGo tts total chapters 0 0).2 = some r) :
    ∀ e ∈ (synthGo tts total chapters 0 0).1, isFailedUpdate e = false := by
  intro e he
  cases e with
  | updateJob u =>
    obtain ⟨p, rfl⟩ := synthGo_some_conv tts total chapters 0 0 r hres u he
    rfl
  | insertJob s p => rfl
  | ttsRequest i => rfl
  | uploadAudio n => rfl
  | respond b => rfl

/-- Claim C6 (amended): a TTS failure is recorded by transitioning the job
to failed, immediately followed by the error response; a storage-upload
failure is NOT recorded — no failed-status update occurs anywhere in such
a run and the job is left as last set (converting); and in either case the
failure IS surfaced synchronously as the error response of the triggering
request, which is the final event of the run (the handler performs
synthesis before responding; there is no detached background task). -/
theorem failure_handling_amended (inp : HandlerInput) :
    (ttsFailureRun inp → ∃ pre, handlerEvents inp =
      pre ++ [Event.updateJob failedUpdate, Event.respond false]) ∧
    (uploadFailureRun inp → (∀ e ∈ handlerEvents inp, isFailedUpdate e = false) ∧
      (handlerEvents inp).getLast? = some (Event.respond false)) := by
  constructor
  · rintro ⟨hopt, hpf, hres⟩
    obtain ⟨evs, hevs, _⟩ := synthGo_none_shape inp.tts _ _ 0 0 hres
    refine ⟨Event.insertJob Status.parsing 10 ::
      Event.updateJob (skeletonUpdate (skeletonOf (splitIntoChapters inp.extractedText))) ::
      evs, ?_⟩
    unfold handlerEvents
    rw [hopt]
    simp only [Bool.false_eq_true, if_false, hpf, if_true]
    rw [hres, hevs]
    rw [afterSynth]
    simp
  · rintro ⟨hopt, hpf, hup, hresne⟩
    cases hres : (synthGo inp.tts (splitIntoChapters inp.extractedText).length
        (splitIntoChapters inp.extractedText) 0 0).2 with
    | none => exact absurd hres hresne
    | some r =>
      constructor
      · intro e he
        unfold handlerEvents at he
        rw [hopt] at he
        simp only [Bool.false_eq_true, if_false, hpf, if_true] at he
        rcases List.mem_cons.mp he with he | he
        · rw [he]; rfl
        rcases List.mem_cons.mp he with he | he
        · rw [he]; rfl
        rcases List.mem_append.mp he with he | he
        · exact synthGo_some_no_failed inp.tts _ _ r hres e he
        · rw [hres] at he
          rw [afterSynth] at he
          rw [hup] at he
          simp only [Bool.false_eq_true, if_false] at he
          rcases List.mem_cons.mp he with he | he
          · rw [he]; rfl
          · rw [List.mem_singleton.mp he]; rfl
      · have hshape : handlerEvents inp =
            (Event.insertJob Status.parsing 10 ::
              Event.updateJob (skeletonUpdate (skeletonOf (splitIntoChapters inp.extractedText))) ::
              ((synthGo inp.tts (splitIntoChapters inp.extractedText).length
                  (splitIntoChapters inp.extractedText) 0 0).1 ++
                [Event.uploadAudio r.2.2])) ++ [Event.respond false] := by
          unfold handlerEvents
          rw [hopt]
          simp only [Bool.false_eq_true, if_false, hpf, if_true]
          rw [hres]
          rw [afterSynth]
          rw [hup]
          simp
        rw [hshape, List.getLast?_concat]

/-- Witness for the amended claim C6: the TTS-failure run ends with the
failed update and the error response; the upload-failure run contains no
failed update and ends with the error response. -/
theorem failure_handling_amended_witness :
    (∃ pre, handlerEvents inpTtsFail =
      pre ++ [Event.updateJob failedUpdate, Event.respond false]) ∧
    ((∀ e ∈ handlerEvents inpUploadFail, isFailedUpdate e = false) ∧
      (handlerEvents inpUploadFail).getLast? = some (Event.respond false)) :=
  ⟨(failure_handling_amended inpTtsFail).1 (by refine ⟨rfl, by decide, by decide⟩),
   (failure_handling_amended inpUploadFail).2
     (by refine ⟨rfl, by decide, rfl, by decide⟩)⟩

/-! ## Claim C7: duration estimation and accumulation -/

theorem synthGo_success_spec (tts : Nat → TtsResult) (total : Nat) :
    ∀ (chapters : List Seg) (i : Nat) (acc : ℚ) (meta : List ChapterMeta)
      (dur : ℚ) (bytes : Nat),
      (synthGo tts total chapters i acc).2 = some (meta, dur, bytes) →
      meta.length = chapters.length ∧
      dur = acc + (meta.map ChapterMeta.durationSeconds).sum ∧
      (∀ j (hj : j < meta.length), (meta.get ⟨j, hj⟩).startSeconds =
        acc + ((meta.take j).map ChapterMeta.durationSeconds).sum) ∧
      (∀ j (hj : j < meta.length), ∃ k, tts (i + j) = TtsResult.ok k ∧
        (meta.get ⟨j, hj⟩).durationSeconds = (k : ℚ) / 16000) := by
  intro chapters
  induction chapters with
  | nil =>
    intro i acc meta dur bytes hres
    simp only [synthGo, Option.some.injEq, Prod.mk.injEq] at hres
    obtain ⟨h1, h2, h3⟩ := hres
    subst h1
    subst h2
    refine ⟨rfl, by simp, ?_, ?_⟩
    · intro j hj
      simp at hj
    · intro j hj
      simp at hj
  | cons ch rest ih =>
    intro i acc meta dur bytes hres
    cases hts : tts i with
    | fail =>
      rw [synthGo_cons_fail hts] at hres
      simp at hres
    | ok k =>
      rw [synthGo_cons_ok hts] at hres
      simp only [Option.map_eq_some'] at hres
      obtain ⟨r, hr, heq⟩ := hres
      obtain ⟨ms, d2, b2⟩ := r
      simp only [Prod.mk.injEq] at heq
      obtain ⟨h1, h2, h3⟩ := heq
      subst h1
      subst h2
      obtain ⟨ihlen, ihdur, ihstart, ihd⟩ := ih (i + 1) (acc + (k : ℚ) / 16000) ms d2 b2 hr
      refine ⟨by simp [ihlen], ?_, ?_, ?_⟩
      · rw [ihdur]
        simp only [List.map_cons, List.sum_cons]
        ring
      · intro j hj
        cases j with
        | zero => simp
        | succ j =>
          have hj' : j < ms.length := by
            simp at hj
            omega
          have hg : ((⟨ch.title, acc, (k : ℚ) / 16000⟩ : ChapterMeta) :: ms).get
              ⟨j + 1, hj⟩ = ms.get ⟨j, hj'⟩ := rfl
          rw [hg, ihstart j hj']
          simp only [List.take_succ_cons, List.map_cons, List.sum_cons]
          ring
      · intro j hj
        cases j with
        | zero =>
          refine ⟨k, by simpa using hts, rfl⟩
        | succ j =>
          have hj' : j < ms.length := by
            simp at hj
            omega
          obtain ⟨k', hk', hdk'⟩ := ihd j hj'
          refine ⟨k', ?_, hdk'⟩
          have : i + 1 + j = i + (j + 1) := by omega
          rw [← this]
          exact hk'

/-- Claim C7: in any run whose trace contains the done update, that
update carries chapter metadata and a total duration such that every
segment's estimated duration equals its audio byte length divided by
16000, each chapter's startSeconds equals the running sum of all prior
segments' durations (0 for the first), and totalDurationSeconds equals
the sum of all segments' estimated durations. -/
theorem duration_accounting (inp : HandlerInput) :
    ∀ u, Event.updateJob u ∈ handlerEvents inp → u.status = some Status.done →
      ∃ meta dur, u.chaptersMeta = some meta ∧ u.totalDurationSeconds = some dur ∧
        dur = (meta.map ChapterMeta.durationSeconds).sum ∧
        (∀ j (hj : j < meta.length), (meta.get ⟨j, hj⟩).startSeconds =
          ((meta.take j).map ChapterMeta.durationSeconds).sum) ∧
        (∀ j (hj : j < meta.length), ∃ k, inp.tts j = TtsResult.ok k ∧
          (meta.get ⟨j, hj⟩).durationSeconds = (k : ℚ) / 16000) := by
  intro u hm hdone
  rcases handler_update_cases inp u hm with rfl | ⟨p, rfl⟩ | rfl | ⟨r, hres, rfl⟩
  · exact absurd hdone (by simp [skeletonUpdate])
  · exact absurd hdone (by simp [convertingUpdate])
  · exact absurd hdone (by simp [failedUpdate])
  · obtain ⟨ms, d2, b2⟩ := r
    obtain ⟨hlen, hdur, hstart, hd⟩ := synthGo_success_spec inp.tts _ _ 0 0 ms d2 b2 hres
    refine ⟨ms, d2, rfl, rfl, ?_, ?_, ?_⟩
    · rw [hdur]
      simp
    · intro j hj
      rw [hstart j hj]
      simp
    · intro j hj
      obtain ⟨k, hk, hdk⟩ := hd j hj
      exact ⟨k, by simpa using hk, hdk⟩

/-- Witness for claim C7 at the concrete one-segment successful run. -/
theorem duration_accounting_witness :
    ∃ meta dur,
      (doneUpdate (audioPathOf "user1".data "c1".data) 2
        [⟨"Full Text".data, 0, 2⟩]).chaptersMeta = some meta ∧
      (doneUpdate (audioPathOf "user1".data "c1".data) 2
        [⟨"Full Text".data, 0, 2⟩]).totalDurationSeconds = some dur ∧
      dur = (meta.map ChapterMeta.durationSeconds).sum ∧
      (∀ j (hj : j < meta.length), (meta.get ⟨j, hj⟩).startSeconds =
        ((meta.take j).map ChapterMeta.durationSeconds).sum) ∧
      (∀ j (hj : j < meta.length), ∃ k, inpSuccess.tts j = TtsResult.ok k ∧
        (meta.get ⟨j, hj⟩).durationSeconds = (k : ℚ) / 16000) :=
  duration_accounting inpSuccess
    (doneUpdate (audioPathOf "user1".data "c1".data) 2 [⟨"Full Text".data, 0, 2⟩])
    (by decide) rfl

/-! ## Claim C8: response timing relative to synthesis -/

/-- An HTTP response event. -/
def isRespondEvent : Event → Bool
  | Event.respond _ => true
  | _ => false

/-- A TTS request event. -/
def isTtsEvent : Event → Bool
  | Event.ttsRequest _ => true
  | _ => false

/-- Claim C8 as stated, at one input: the triggering call returns once the
job is accepted and segmentation is complete, and the synthesis loop
continues after the response — i.e. whenever the run performs synthesis,
the response event occurs in the trace strictly before the first TTS
request. -/
def claimC8At (inp : HandlerInput) : Prop :=
  ((handlerEvents inp).any isTtsEvent = true) →
    (handlerEvents inp).findIdx isRespondEvent <
      (handlerEvents inp).findIdx isTtsEvent

/-- Claim C8 (counterexample): in the fully successful run the only
response event is the last event of the trace, after the TTS request,
the assembly and the upload — the handler does not return when
segmentation completes and synthesis is not a detached background task —
so the claim as stated is false at this input. -/
theorem early_response_counterexample : ¬ claimC8At inpSuccess := by
  unfold claimC8At
  decide

theorem synthGo_no_respond (tts : Nat → TtsResult) (total : Nat) :
    ∀ (chapters : List Seg) (i : Nat) (acc : ℚ),
      ∀ e ∈ (synthGo tts total chapters i acc).1, isRespondEvent e = false := by
  intro chapters
  induction chapters with
  | nil =>
    intro i acc e he
    simp [synthGo] at he
  | cons ch rest ih =>
    intro i acc e he
    cases hts : tts i with
    | fail =>
      rw [synthGo_cons_fail hts] at he
      rcases List.mem_cons.mp he with he | he
      · rw [he]; rfl
      rcases List.mem_cons.mp he with he | he
      · rw [he]; rfl
      · rw [List.mem_singleton.mp he]; rfl
    | ok k =>
      rw [synthGo_cons_ok hts] at he
      rcases List.mem_cons.mp he with he | he
      · rw [he]; rfl
      rcases List.mem_cons.mp he with he | he
      · rw [he]; rfl
      · exact ih (i + 1) _ e he

/-- Claim C8 (amended): the triggering call does not return until the
whole run is finished: every handler run emits exactly one response, as
its final event — after segmentation, the entire synthesis loop, assembly
and upload — and no event before it is a response.  (The caller can still
poll the job record for progress, but the triggering request itself only
returns after synthesis has completed or failed.) -/
theorem response_is_final_event (inp : HandlerInput) :
    ∃ pre b, handlerEvents inp = pre ++ [Event.respond b] ∧
      ∀ e ∈ pre, isRespondEvent e = false := by
  by_cases hopt : inp.isOptions = true
  · refine ⟨[], true, ?_, ?_⟩
    · simp [handlerEvents, hopt]
    · intro e he
      simp at he
  · by_cases hpf : preflightOk inp = true
    · cases hres : (synthGo inp.tts (splitIntoChapters inp.extractedText).length
          (splitIntoChapters inp.extractedText) 0 0).2 with
      | none =>
        refine ⟨Event.insertJob Status.parsing 10 ::
          Event.updateJob (skeletonUpdate (skeletonOf (splitIntoChapters inp.extractedText))) ::
          (synthGo inp.tts (splitIntoChapters inp.extractedText).length
            (splitIntoChapters inp.extractedText) 0 0).1, false, ?_, ?_⟩
        · unfold handlerEvents
          simp only [hopt, Bool.false_eq_true, if_false, hpf, if_true]
          rw [hres, afterSynth]
          simp
        · intro e he
          rcases List.mem_cons.mp he with he | he
          · rw [he]; rfl
          rcases List.mem_cons.mp he with he | he
          · rw [he]; rfl
          · exact synthGo_no_respond inp.tts _ _ 0 0 e he
      | some r =>
        by_cases hup : inp.uploadOk = true
        · refine ⟨Event.insertJob Status.parsing 10 ::
            Event.updateJob (skeletonUpdate (skeletonOf (splitIntoChapters inp.extractedText))) ::
            ((synthGo inp.tts (splitIntoChapters inp.extractedText).length
              (splitIntoChapters inp.extractedText) 0 0).1 ++
              [Event.uploadAudio r.2.2,
               Event.updateJob (doneUpdate (audioPathOf (inp.authUser.getD [])
                 inp.conversionId) r.2.1 r.1)]), true, ?_, ?_⟩
          · unfold handlerEvents
            simp only [hopt, Bool.false_eq_true, if_false, hpf, if_true]
            rw [hres, afterSynth]
            simp [hup]
          · intro e he
            rcases List.mem_cons.mp he with he | he
            · rw [he]; rfl
            rcases List.mem_cons.mp he with he | he
            · rw [he]; rfl
            rcases List.mem_append.mp he with he | he
            · exact synthGo_no_respond inp.tts _ _ 0 0 e he
            rcases List.mem_cons.mp he with he | he
            · rw [he]; rfl
            · rw [List.mem_singleton.mp he]; rfl
        · refine ⟨Event.insertJob Status.parsing 10 ::
            Event.updateJob (skeletonUpdate (skeletonOf (splitIntoChapters inp.extractedText))) ::
            ((synthGo inp.tts (splitIntoChapters inp.extractedText).length
              (splitIntoChapters inp.extractedText) 0 0).1 ++
              [Event.uploadAudio r.2.2]), false, ?_, ?_⟩
          · unfold handlerEvents
            simp only [hopt, Bool.false_eq_true, if_false, hpf, if_true]
            rw [hres, afterSynth]
            simp [hup]
          · intro e he
            rcases List.mem_cons.mp he with he | he
            · rw [he]; rfl
            rcases List.mem_cons.mp he with he | he
            · rw [he]; rfl
            rcases List.mem_append.mp he with he | he
            · exact synthGo_no_respond inp.tts _ _ 0 0 e he
            · rw [List.mem_singleton.mp he]; rfl
    · refine ⟨[], false, ?_, ?_⟩
      · simp [handlerEvents, hopt, hpf]
      · intro e he
        simp at he

/-! ## Claim C9: the polling client (src/src/pages/Index.tsx, handleConvert)

The poll loop (second variant, lines 541-572) is a setInterval callback
with a fixed 3000 ms interval.  One tick reads the conversions row; a null
row (including any query error, since only the data field is
destructured) just returns and the loop continues; status done stores the
result and stops; status failed stops and throws; anything else
continues.  The callback has no attempt counter and no consecutive-error
counter, so the outcome type below has no timeout or connection-error
alternative — those exist only in the repository's tests. -/

/-- What one poll tick observes: a conversions row, or no data (also the
case when the query errors). -/
inductive PollResult
  | conv (status : Status) (progress : ℤ)
  | noData
  deriving DecidableEq, Repr

/-- How the poll loop can end (it has no timeout or connection-error
outcome). -/
inductive PollOutcome
  | stillPolling
  | finishedDone
  | crashedFailed
  deriving DecidableEq, Repr

/-- One tick of the setInterval callback. -/
def pollStep : PollResult → Option PollOutcome
  | PollResult.noData => none
  | PollResult.conv s _ =>
    if s = Status.done then some PollOutcome.finishedDone
    else if s = Status.failed then some PollOutcome.crashedFailed
    else none

/-- Run the poll loop over a finite stream of tick observations. -/
def runPolls : List PollResult → PollOutcome
  | [] => PollOutcome.stillPolling
  | r :: rs =>
    match pollStep r with
    | some o => o
    | none => runPolls rs

/-- Source: setInterval(..., 3000). -/
def pollIntervalMs : Nat := 3000

/-- Claim C9 (divergence evidence): the claim and the repository's own
tests require the client to give up after 100 poll attempts and to abort
after 5 consecutive poll errors, but the shipped poll loop has neither
cap: after 101 polls of a still-converting job it is still polling with no
timeout surfaced, and after 5 consecutive poll errors it is still polling
with no connection-error surfaced; only the 3-second interval matches the
claim. -/
theorem poll_loop_has_no_caps :
    runPolls (List.replicate 101 (PollResult.conv Status.converting 50)) =
      PollOutcome.stillPolling ∧
    runPolls (List.replicate 5 PollResult.noData) = PollOutcome.stillPolling ∧
    pollIntervalMs = 3000 := by
  refine ⟨by decide, by decide, rfl⟩

/-! ## Claim C10: the optional-auth clone-voice handler (src/unnamed/part_006)

The first variant in part_006: the caller's identity is OPTIONAL — with no
Authorization header (or a failed getUser) the handler continues under the
all-zeros default user id instead of failing with Unauthorized. -/

/-- Clone lifecycle states. -/
inductive CloneStatus
  | pending
  | processing
  | ready
  | failed
  deriving DecidableEq, Repr

/-- Observable effects of the clone-voice handler. -/
inductive CloneEvent
  | uploadSample (userId : List Char)
  | insertClone (userId : List Char) (status : CloneStatus)
  | elevenLabsAdd (userId : List Char)
  | updateClone (status : CloneStatus)
  | respondClone (ok : Bool)
  deriving DecidableEq, Repr

/-- Source: "00000000-0000-0000-0000-000000000000". -/
def defaultUserId : List Char := "00000000-0000-0000-0000-000000000000".data

/-- Input record of one clone-voice run. -/
structure CloneInput where
  isOptions : Bool
  hasApiKey : Bool
  hasAuthHeader : Bool
  authUser : Option (List Char)
  audioPresent : Bool
  uploadOk : Bool
  insertOk : Bool
  elevenOk : Bool
  deriving DecidableEq, Repr

/-- The user id the handler runs under: the resolved user when the header
is present and getUser succeeds, the all-zeros default otherwise. -/
def cloneUserId (inp : CloneInput) : List Char :=
  match inp.hasAuthHeader, inp.authUser with
  | true, some u => u
  | _, _ => defaultUserId

/-- The trace of one clone-voice run (part_006, first variant): parse the
form, upload the sample under the resolved user id, insert the
voice_clones row with status processing, call the ElevenLabs voices/add
endpoint, then mark the row ready (or failed) and respond. -/
def cloneVoiceEvents (inp : CloneInput) : List CloneEvent :=
  if inp.isOptions then [CloneEvent.respondClone true]
  else if !inp.hasApiKey then [CloneEvent.respondClone false]
  else if !inp.audioPresent then [CloneEvent.respondClone false]
  else
    CloneEvent.uploadSample (cloneUserId inp) ::
    (if !inp.uploadOk then [CloneEvent.respondClone false]
     else CloneEvent.insertClone (cloneUserId inp) CloneStatus.processing ::
       (if !inp.insertOk then [CloneEvent.respondClone false]
        else CloneEvent.elevenLabsAdd (cloneUserId inp) ::
          (if !inp.elevenOk then
            [CloneEvent.updateClone CloneStatus.failed, CloneEvent.respondClone false]
           else [CloneEvent.updateClone CloneStatus.ready,
             CloneEvent.respondClone true])))

/-- A storage write, a record insert, or an external cloning call. -/
def isCloneSideEffect : CloneEvent → Bool
  | CloneEvent.uploadSample _ => true
  | CloneEvent.insertClone _ _ => true
  | CloneEvent.elevenLabsAdd _ => true
  | _ => false

/-- Claim C10 as stated, at one input with no authenticated identity: the
operation fails with Unauthorized (in particular it never succeeds) and
performs no storage write, record insert, or external cloning call. -/
def claimC10At (inp : CloneInput) : Prop :=
  ((cloneVoiceEvents inp).any isCloneSideEffect = false) ∧
  CloneEvent.respondClone true ∉ cloneVoiceEvents inp

/-- A request with no Authorization header at all, everything else
well-formed and every collaborator call succeeding. -/
def cloneNoAuth : CloneInput := ⟨false, true, false, none, true, true, true, true⟩

/-- Claim C10 (counterexample): the optional-auth clone-voice handler,
given a request with no authenticated caller identity, does not fail with
Unauthorized: it uploads the sample, inserts the voice_clones row and
calls the external cloning engine under the all-zeros default user id,
and succeeds — so the claim as stated is false at this input. -/
theorem clone_unauthorized_counterexample : ¬ claimC10At cloneNoAuth := by
  unfold claimC10At
  decide

/-- Claim C10 (amended): in the optional-auth clone-voice handler a
request with no authenticated caller identity (no Authorization header, or
a failed getUser) is not rejected: the handler proceeds under the
all-zeros default user id, performing the storage write, then (when the
upload succeeds) the record insert, then (when the insert also succeeds)
the external cloning call.  Only the separate authenticated variant of the
handler fails with Unauthorized before performing any of these. -/
theorem clone_optional_auth_amended (inp : CloneInput)
    (hopt : inp.isOptions = false) (hkey : inp.hasApiKey = true)
    (hauth : inp.hasAuthHeader = false ∨ inp.authUser = none)
    (haud : inp.audioPresent = true) :
    CloneEvent.uploadSample defaultUserId ∈ cloneVoiceEvents inp ∧
    (inp.uploadOk = true →
      CloneEvent.insertClone defaultUserId CloneStatus.processing ∈
        cloneVoiceEvents inp) ∧
    (inp.uploadOk = true → inp.insertOk = true →
      CloneEvent.elevenLabsAdd defaultUserId ∈ cloneVoiceEvents inp) := by
  have huid : cloneUserId inp = defaultUserId := by
    unfold cloneUserId
    cases hb : inp.hasAuthHeader with
    | false => rfl
    | true =>
      rcases hauth with h | h
      · rw [h] at hb
        cases hb
      · rw [h]
  refine ⟨?_, ?_, ?_⟩
  · simp [cloneVoiceEvents, hopt, hkey, haud, huid]
  · intro hu
    simp [cloneVoiceEvents, hopt, hkey, haud, huid, hu]
  · intro hu hi
    simp [cloneVoiceEvents, hopt, hkey, haud, huid, hu, hi]

/-- Witness for the amended claim C10 at the concrete no-auth request. -/
theorem clone_optional_auth_amended_witness :
    CloneEvent.uploadSample defaultUserId ∈ cloneVoiceEvents cloneNoAuth ∧
    CloneEvent.insertClone defaultUserId CloneStatus.processing ∈
      cloneVoiceEvents cloneNoAuth ∧
    CloneEvent.elevenLabsAdd defaultUserId ∈ cloneVoiceEvents cloneNoAuth :=
  ⟨(clone_optional_auth_amended cloneNoAuth rfl rfl (Or.inl rfl) rfl).1,
   (clone_optional_auth_amended cloneNoAuth rfl rfl (Or.inl rfl) rfl).2.1 rfl,
   (clone_optional_auth_amended cloneNoAuth rfl rfl (Or.inl rfl) rfl).2.2 rfl rfl⟩

/-- Witness for claim C1 at a concrete text: the segment list is
non-empty and the (single) segment respects the bound. -/
theorem splitIntoChapters_nonempty_and_bounded_witness :
    splitIntoChapters "Hello world.".data ≠ [] ∧
    (⟨"Full Text".data, "Hello world.".data⟩ : Seg).content.length ≤ MAX_CHUNK_CHARS :=
  ⟨(splitIntoChapters_nonempty_and_bounded "Hello world.".data).1,
   (splitIntoChapters_nonempty_and_bounded "Hello world.".data).2 _ (by decide)⟩

/-- Witness for the amended claim C2 at the counterexample text. -/
theorem splitIntoChapters_concat_wsSub_witness :
    WsSub (concatContents (splitIntoChapters c2Text)) (dropFromFirstMatch c2Text) :=
  splitIntoChapters_concat_wsSub c2Text

/-- Witness for the amended claim C8 at the concrete successful run. -/
theorem response_is_final_event_witness :
    ∃ pre b, handlerEvents inpSuccess = pre ++ [Event.respond b] ∧
      ∀ e ∈ pre, isRespondEvent e = false :=
  response_is_final_event inpSuccess
